import Mathlib

/-!
Binary search tree (`BST.h`)

A shallow embedding of the template class `BST<KeyType>` of `src/BST.h`, and the
properties of its operations.

* A C++ value of type `Node*` is a value of `NodePtr KeyType`: `NodePtr.null` is
  `nullptr`, `NodePtr.node key left right` points to a `Node` with these three
  fields. Nodes are exclusively owned by their parent, so the pointer graph is a
  finite tree and in-place updates of a field are returned as the updated tree.
* The private static helpers `BST::add(Node*, ...)`, `BST::has(Node*, ...)`,
  ... are the functions `NodePtr.add`, `NodePtr.has`, ...; the public methods
  are the functions `BST.add`, `BST.has`, ... on the structure `BST`, whose one
  field is `root`.
* `KeyType` is any type with a linear order; `a > b` is `b < a`.
* `int` results (`size`) are natural numbers: a count of allocated nodes.
* `std::ostringstream` is the string written so far; `ss << key` appends the
  rendering of the key, which belongs to `KeyType` and is a parameter `render`.
* The loop of `getLevelOrderTraversal` is a recursion on the queue that is
  well-founded: every iteration lowers the weight of the queue.
* For the independence of copies the nodes are cells of a memory (`Heap`), with
  `new`, `delete` and field updates in place (`Mem.copy`, `Mem.add`, `Mem.remove`,
  `Mem.clear`); `Mem.add_spec`, `Mem.remove_spec` and `Mem.copy_spec` show that on a
  tree-shaped node graph they compute what `NodePtr.add`, `NodePtr.remove` and
  `NodePtr.copy` compute on the tree.
-/

namespace BinarySearchTree

universe u

/-- A `Node*` of `BST.h`: `null` is `nullptr`, `node key left right` points to a
`Node` holding `key` and the two child pointers. -/
inductive NodePtr (KeyType : Type u) where
  | null : NodePtr KeyType
  | node (key : KeyType) (left right : NodePtr KeyType) : NodePtr KeyType
deriving DecidableEq

/-- The class `BST<KeyType>`: its only data member is `Node *root`. -/
structure BST (KeyType : Type u) where
  root : NodePtr KeyType
deriving DecidableEq

variable {KeyType : Type u}

/-! ## The source functions -/

/-- `Node::findMax` (BST.h 237-243) of the node with fields `key` and `right`
(the method never reads `left`): the key of the right-most node. -/
def Node.findMax (key : KeyType) : NodePtr KeyType → KeyType
  | .null => key
  | .node rkey _ rright => Node.findMax rkey rright

/-- `BST::add(Node*, const KeyType&)` (BST.h 266-280). On `nullptr` the code
allocates `Node(newKey)` and then compares `newKey` with the new node's own key:
both `newKey < newKey` and `newKey > newKey` are false, so the leaf is returned. -/
def NodePtr.add [LinearOrder KeyType] : NodePtr KeyType → KeyType → NodePtr KeyType
  | .null, newKey => .node newKey .null .null
  | .node key left right, newKey =>
    if newKey < key then .node key (NodePtr.add left newKey) right
    else if newKey > key then .node key left (NodePtr.add right newKey)
    else .node key left right

/-- `BST::has(Node*, const KeyType&)` (BST.h 290-306). -/
def NodePtr.has [LinearOrder KeyType] : NodePtr KeyType → KeyType → Bool
  | .null, _ => false
  | .node ckey left right, key =>
    if key < ckey then NodePtr.has left key
    else if key > ckey then NodePtr.has right key
    else true

/-- `BST::remove(Node*, const KeyType&)` (BST.h 315-351). -/
def NodePtr.remove [LinearOrder KeyType] : NodePtr KeyType → KeyType → NodePtr KeyType
  | .null, _ => .null
  | .node ckey left right, key =>
    if key < ckey then .node ckey (NodePtr.remove left key) right
    else if key > ckey then .node ckey left (NodePtr.remove right key)
    else
      match left, right with
      | .null, right => right
      | .node lkey lleft lright, .null => .node lkey lleft lright
      | .node lkey lleft lright, .node rkey rleft rright =>
        .node (Node.findMax lkey lright)
          (NodePtr.remove (.node lkey lleft lright) (Node.findMax lkey lright))
          (.node rkey rleft rright)

/-- `BST::size(Node*)` (BST.h 359-369). -/
def NodePtr.size : NodePtr KeyType → Nat
  | .null => 0
  | .node _ left right => NodePtr.size left + 1 + NodePtr.size right

/-- `BST::getInOrderTraversal(Node*, std::ostringstream&)` (BST.h 446-455): the
stream after the call, from the stream `ss` before it. -/
def NodePtr.getInOrderTraversal (render : KeyType → String) :
    NodePtr KeyType → String → String
  | .null, ss => ss
  | .node key left right, ss =>
    NodePtr.getInOrderTraversal render right
      (NodePtr.getInOrderTraversal render left ss ++ render key ++ " ")

/-- `BST::getPreOrderTraversal(Node*, std::ostringstream&)` (BST.h 463-472). -/
def NodePtr.getPreOrderTraversal (render : KeyType → String) :
    NodePtr KeyType → String → String
  | .null, ss => ss
  | .node key left right, ss =>
    NodePtr.getPreOrderTraversal render right
      (NodePtr.getPreOrderTraversal render left (ss ++ render key ++ " "))

/-- The constructor `BST()` (BST.h 25): `root(nullptr)`. -/
def BST.new : BST KeyType := ⟨.null⟩

/-- The public `BST::add` (BST.h 65-67): `root = add(root, newKey)`. -/
def BST.add [LinearOrder KeyType] (t : BST KeyType) (newKey : KeyType) : BST KeyType :=
  ⟨t.root.add newKey⟩

/-- The public `BST::has` (BST.h 76-78). -/
def BST.has [LinearOrder KeyType] (t : BST KeyType) (key : KeyType) : Bool :=
  t.root.has key

/-- The public `BST::remove` (BST.h 85-87): `root = remove(root, key)`. -/
def BST.remove [LinearOrder KeyType] (t : BST KeyType) (key : KeyType) : BST KeyType :=
  ⟨t.root.remove key⟩

/-- The public `BST::empty` (BST.h 95-97): `root == nullptr`. -/
def BST.empty (t : BST KeyType) : Bool :=
  match t.root with
  | .null => true
  | .node _ _ _ => false

/-- The public `BST::size` (BST.h 104-106). -/
def BST.size (t : BST KeyType) : Nat :=
  t.root.size

/-- The public `BST::getInOrderTraversal` (BST.h 147-151): a fresh stream, the
helper on the root, the stream's text. -/
def BST.getInOrderTraversal (render : KeyType → String) (t : BST KeyType) : String :=
  t.root.getInOrderTraversal render ""

/-- The public `BST::getPreOrderTraversal` (BST.h 158-162). -/
def BST.getPreOrderTraversal (render : KeyType → String) (t : BST KeyType) : String :=
  t.root.getPreOrderTraversal render ""

/-! ## Vocabulary of the specification -/

/-- Every key stored in the subtree satisfies `p`. -/
def NodePtr.All (p : KeyType → Prop) : NodePtr KeyType → Prop
  | .null => True
  | .node key left right => p key ∧ NodePtr.All p left ∧ NodePtr.All p right

/-- The ordering invariant of the data model: at every node, all keys of the left
subtree are strictly less than the node's key and all keys of the right subtree
are strictly greater. -/
def NodePtr.Ordered [LT KeyType] : NodePtr KeyType → Prop
  | .null => True
  | .node key left right =>
    NodePtr.All (fun x => x < key) left ∧ NodePtr.All (fun x => key < x) right ∧
      NodePtr.Ordered left ∧ NodePtr.Ordered right

/-- The ordering invariant of a `BST` object is that of the tree under its root. -/
def BST.Ordered [LT KeyType] (t : BST KeyType) : Prop :=
  t.root.Ordered

/-- The keys in the order the in-order traversal visits them: left subtree, node,
right subtree. -/
def NodePtr.inOrderKeys : NodePtr KeyType → List KeyType
  | .null => []
  | .node key left right => NodePtr.inOrderKeys left ++ key :: NodePtr.inOrderKeys right

/-- The keys in the order the pre-order traversal visits them: node, left subtree,
right subtree. -/
def NodePtr.preOrderKeys : NodePtr KeyType → List KeyType
  | .null => []
  | .node key left right => key :: (NodePtr.preOrderKeys left ++ NodePtr.preOrderKeys right)

/-- The text a traversal writes for a key sequence: each key's rendering followed
by one space, appended to the stream `ss`. -/
def writeKeys (render : KeyType → String) (ss : String) : List KeyType → String
  | [] => ss
  | key :: keys => writeKeys render (ss ++ render key ++ " ") keys

/-- The tree obtained by calling `add` on an empty tree for each key of the list,
in list order (the driver's `addPrimitiveTree` loop). -/
def BST.build [LinearOrder KeyType] (keys : List KeyType) : BST KeyType :=
  keys.foldl BST.add BST.new

/-- The node with fields `key`, `left`, `right` with its right-most node replaced
by that node's left child. -/
def Node.dropRightmost (key : KeyType) (left : NodePtr KeyType) : NodePtr KeyType → NodePtr KeyType
  | .null => left
  | .node rkey rleft rright => .node key left (Node.dropRightmost rkey rleft rright)

/-- One mutating call on a tree: `add(key)` or `remove(key)`. -/
inductive Call (KeyType : Type u) where
  | add (key : KeyType) : Call KeyType
  | remove (key : KeyType) : Call KeyType
deriving DecidableEq

/-- The tree after one call. -/
def BST.call [LinearOrder KeyType] (t : BST KeyType) : Call KeyType → BST KeyType
  | .add key => t.add key
  | .remove key => t.remove key

/-- The tree after a sequence of calls, made in list order. -/
def BST.run [LinearOrder KeyType] (t : BST KeyType) (calls : List (Call KeyType)) : BST KeyType :=
  calls.foldl BST.call t

/-- The mathematical set after the same calls: `add` inserts, `remove` erases. -/
def Call.keySet [DecidableEq KeyType] (s : Finset KeyType) : List (Call KeyType) → Finset KeyType
  | [] => s
  | .add key :: calls => Call.keySet (insert key s) calls
  | .remove key :: calls => Call.keySet (s.erase key) calls

/-- The number of `add` calls of the sequence whose key was absent (`has` false)
when the call was made, the sequence starting on the tree `t`. -/
def BST.addsOfAbsent [LinearOrder KeyType] (t : BST KeyType) : List (Call KeyType) → Nat
  | [] => 0
  | .add key :: calls => (if t.has key then 0 else 1) + BST.addsOfAbsent (t.add key) calls
  | .remove key :: calls => BST.addsOfAbsent (t.remove key) calls

/-- The number of `remove` calls of the sequence whose key was present (`has` true)
when the call was made, the sequence starting on the tree `t`. -/
def BST.removesOfPresent [LinearOrder KeyType] (t : BST KeyType) : List (Call KeyType) → Nat
  | [] => 0
  | .add key :: calls => BST.removesOfPresent (t.add key) calls
  | .remove key :: calls =>
    (if t.has key then 1 else 0) + BST.removesOfPresent (t.remove key) calls

/-- A step from a node to one of its children. -/
inductive Dir where
  | left : Dir
  | right : Dir
deriving DecidableEq

/-- The subtree reached from `t` by the steps of the path (`null` when the path
leaves the tree). -/
def NodePtr.subtreeAt : NodePtr KeyType → List Dir → NodePtr KeyType
  | t, [] => t
  | .null, _ :: _ => .null
  | .node _ left _, .left :: path => NodePtr.subtreeAt left path
  | .node _ _ right, .right :: path => NodePtr.subtreeAt right path

/-- The tree `t` with the subtree at the path replaced by `s`; every node that is
not at or below that position keeps its key and its place. -/
def NodePtr.replaceAt : NodePtr KeyType → List Dir → NodePtr KeyType → NodePtr KeyType
  | _, [], s => s
  | .null, _ :: _, _ => .null
  | .node key left right, .left :: path, s => .node key (NodePtr.replaceAt left path s) right
  | .node key left right, .right :: path, s => .node key left (NodePtr.replaceAt right path s)

/-! ## More source functions: structural queries, traversals, copy -/

/-- `Node::isLeaf` (BST.h 251-254) of a node with the children `left` and `right`:
`left == nullptr && right == nullptr`. -/
def Node.isLeaf : NodePtr KeyType → NodePtr KeyType → Bool
  | .null, .null => true
  | _, _ => false

/-- `BST::getLeafCount(Node*)` (BST.h 377-391). -/
def NodePtr.getLeafCount : NodePtr KeyType → Nat
  | .null => 0
  | .node _ left right =>
    if Node.isLeaf left right then 1
    else NodePtr.getLeafCount left + NodePtr.getLeafCount right

/-- `BST::getHeight(Node*)` (BST.h 399-409). -/
def NodePtr.getHeight : NodePtr KeyType → Nat
  | .null => 0
  | .node _ left right => 1 + max (NodePtr.getHeight left) (NodePtr.getHeight right)

/-- `BST::getLevelWidth(Node*, int)` (BST.h 422-438). `remainingLvls` is a natural
number: `getWidth` only passes levels from 0 to the height. -/
def NodePtr.getLevelWidth : NodePtr KeyType → Nat → Nat
  | .null, _ => 0
  | .node _ _ _, 0 => 1
  | .node _ left right, remainingLvls + 1 =>
    NodePtr.getLevelWidth left remainingLvls + NodePtr.getLevelWidth right remainingLvls

/-- `BST::getPostOrderTraversal(Node*, std::ostringstream&)` (BST.h 480-489). -/
def NodePtr.getPostOrderTraversal (render : KeyType → String) :
    NodePtr KeyType → String → String
  | .null, ss => ss
  | .node key left right, ss =>
    NodePtr.getPostOrderTraversal render right
      (NodePtr.getPostOrderTraversal render left ss) ++ render key ++ " "

/-- `BST::copy(Node*)` (BST.h 497-504): a new node for every node of the subtree. -/
def NodePtr.copy : NodePtr KeyType → NodePtr KeyType
  | .null => .null
  | .node key left right => .node key (NodePtr.copy left) (NodePtr.copy right)

/-- The statement `if (child != nullptr) nodes.push(child);` of
`getLevelOrderTraversal` (BST.h 195-203); the queue is a list, front first. -/
def pushIfPresent (nodes : List (NodePtr KeyType)) : NodePtr KeyType → List (NodePtr KeyType)
  | .null => nodes
  | .node key left right => nodes ++ [.node key left right]

/-- The measure under which the level-order loop terminates: every queued pointer
counts for twice the size of its subtree plus one. -/
def queueWeight : List (NodePtr KeyType) → Nat
  | [] => 0
  | t :: nodes => 2 * t.size + 1 + queueWeight nodes

/-- The loop `while (!nodes.empty())` of `getLevelOrderTraversal` (BST.h 191-206),
from the queue `nodes` (front first) and the stream `ss`: the front node's key is
written, its children that are present are pushed, left first, and the front is
popped. The code only ever pushes pointers that are not `nullptr`; a `nullptr` in
the queue is popped and skipped. -/
def levelOrderLoop (render : KeyType → String) :
    List (NodePtr KeyType) → String → String
  | [], ss => ss
  | .null :: nodes, ss => levelOrderLoop render nodes ss
  | .node key left right :: nodes, ss =>
    levelOrderLoop render (pushIfPresent (pushIfPresent nodes left) right)
      (ss ++ render key ++ " ")
termination_by nodes => queueWeight nodes
decreasing_by
  · simp only [queueWeight]
    omega
  · have ha : ∀ (q : List (NodePtr KeyType)) (t : NodePtr KeyType),
        queueWeight (q ++ [t]) = queueWeight q + (2 * t.size + 1) := by
      intro q t
      induction q with
      | nil =>
        show 2 * t.size + 1 + 0 = 0 + (2 * t.size + 1)
        omega
      | cons x q ih =>
        show 2 * x.size + 1 + queueWeight (q ++ [t]) = 2 * x.size + 1 + queueWeight q + _
        rw [ih]
        omega
    have hp : ∀ (q : List (NodePtr KeyType)) (c : NodePtr KeyType),
        queueWeight (pushIfPresent q c) ≤ queueWeight q + 2 * c.size + 1 := by
      intro q c
      cases c with
      | null => exact Nat.le_add_right _ _
      | node ck cl cr =>
        rw [show pushIfPresent q (.node ck cl cr) = q ++ [.node ck cl cr] from rfl, ha]
        exact Nat.le_refl _
    have h1 := hp nodes left
    have h2 := hp (pushIfPresent nodes left) right
    show _ < 2 * (left.size + 1 + right.size) + 1 + queueWeight nodes
    omega

/-- The public `BST::getLeafCount` (BST.h 113-115). -/
def BST.getLeafCount (t : BST KeyType) : Nat :=
  t.root.getLeafCount

/-- The public `BST::getHeight` (BST.h 122-124). -/
def BST.getHeight (t : BST KeyType) : Nat :=
  t.root.getHeight

/-- The public `BST::getWidth` (BST.h 132-140): `maxWidth` starts at 0 and, for
`level` from 0 up to `height - 1`, becomes `max(getLevelWidth(root, level), maxWidth)`. -/
def BST.getWidth (t : BST KeyType) : Nat :=
  (List.range t.root.getHeight).foldl
    (fun maxWidth level => max (t.root.getLevelWidth level) maxWidth) 0

/-- The public `BST::getPostOrderTraversal` (BST.h 169-173). -/
def BST.getPostOrderTraversal (render : KeyType → String) (t : BST KeyType) : String :=
  t.root.getPostOrderTraversal render ""

/-- The public `BST::getLevelOrderTraversal` (BST.h 180-209): the empty string on
an empty tree, otherwise the loop on the queue holding the root. -/
def BST.getLevelOrderTraversal (render : KeyType → String) (t : BST KeyType) : String :=
  if t.empty then "" else levelOrderLoop render [t.root] ""

/-- The copy constructor `BST(const BST&)` (BST.h 32-34): `root = copy(other.root)`. -/
def BST.copyOf (other : BST KeyType) : BST KeyType :=
  ⟨other.root.copy⟩

/-- The assignment `operator=` (BST.h 43-50) on the object `self`. `sameObject`
is the outcome of the address test `this == &rhs`; when it is false the current
nodes are cleared and the root becomes `copy(rhs.root)`, when it is true nothing
is done. The result is the assigned object, `*this`. -/
def BST.assign (self rhs : BST KeyType) (sameObject : Bool) : BST KeyType :=
  if !sameObject then ⟨rhs.root.copy⟩ else self

/-! ## More vocabulary of the specification -/

/-- The keys in the order the post-order traversal visits them: left subtree,
right subtree, node. -/
def NodePtr.postOrderKeys : NodePtr KeyType → List KeyType
  | .null => []
  | .node key left right =>
    NodePtr.postOrderKeys left ++ NodePtr.postOrderKeys right ++ [key]

/-- The keys of the nodes at depth `d` (the root is at depth 0), from left to right. -/
def NodePtr.levelKeys : NodePtr KeyType → Nat → List KeyType
  | .null, _ => []
  | .node key _ _, 0 => [key]
  | .node _ left right, d + 1 => NodePtr.levelKeys left d ++ NodePtr.levelKeys right d

/-- The keys level by level: depth 0, 1, ..., height - 1, each level from left to
right. -/
def NodePtr.levelOrderKeys (t : NodePtr KeyType) : List KeyType :=
  (List.range t.getHeight).flatMap (fun d => t.levelKeys d)

/-- The text of a key sequence: the concatenation, in order, of each key's
rendering immediately followed by one space. -/
def textOf (render : KeyType → String) (keys : List KeyType) : String :=
  String.join (keys.map (fun key => render key ++ " "))

/-- The tree after calling `remove` for each key of the list, in list order (the
driver's `testRemove` loop). -/
def BST.removeAll [LinearOrder KeyType] (t : BST KeyType) (keys : List KeyType) : BST KeyType :=
  keys.foldl BST.remove t

/-- The path leads from the root of `t` to a leaf: a node without children. The
path visits `path.length + 1` nodes. -/
def NodePtr.IsLeafAt (t : NodePtr KeyType) (path : List Dir) : Prop :=
  ∃ key, t.subtreeAt path = .node key .null .null

/-- The children of a node that are present, left first. -/
def NodePtr.children : NodePtr KeyType → List (NodePtr KeyType)
  | .null => []
  | .node _ left right => pushIfPresent (pushIfPresent [] left) right

/-- The nodes one level below a frontier, from left to right. -/
def nextFrontier : List (NodePtr KeyType) → List (NodePtr KeyType)
  | [] => []
  | t :: frontier => t.children ++ nextFrontier frontier

/-- A single breadth-first pass that counts each level (the alternative to
`getWidth` of the design notes): from the frontier of one level and the greatest
count so far, take the maximum with the size of the frontier and go on with the
frontier of the next level, until a level is empty. -/
def widthPass : List (NodePtr KeyType) → Nat → Nat
  | [], maxWidth => maxWidth
  | t :: frontier, maxWidth =>
    widthPass (nextFrontier (t :: frontier)) (max (t :: frontier).length maxWidth)
termination_by frontier => queueWeight frontier
decreasing_by
  have ha : ∀ (a b : List (NodePtr KeyType)),
      queueWeight (a ++ b) = queueWeight a + queueWeight b := by
    intro a b
    induction a with
    | nil =>
      show queueWeight b = 0 + queueWeight b
      omega
    | cons x a ih =>
      show 2 * x.size + 1 + queueWeight (a ++ b) = 2 * x.size + 1 + queueWeight a + _
      rw [ih]
      omega
  have hp : ∀ (q : List (NodePtr KeyType)) (c : NodePtr KeyType),
      queueWeight (pushIfPresent q c) ≤ queueWeight q + 2 * c.size + 1 := by
    intro q c
    cases c with
    | null => exact Nat.le_add_right _ _
    | node ck cl cr =>
      rw [show pushIfPresent q (.node ck cl cr) = q ++ [.node ck cl cr] from rfl, ha]
      exact Nat.le_refl _
  have hc : ∀ c : NodePtr KeyType, queueWeight c.children < 2 * c.size + 1 := by
    intro c
    cases c with
    | null => exact Nat.succ_pos _
    | node ck cl cr =>
      have h1 := hp [] cl
      have h2 := hp (pushIfPresent [] cl) cr
      show queueWeight (pushIfPresent (pushIfPresent [] cl) cr) < 2 * (cl.size + 1 + cr.size) + 1
      have h0 : queueWeight ([] : List (NodePtr KeyType)) = 0 := rfl
      omega
  have hn : ∀ q : List (NodePtr KeyType), queueWeight (nextFrontier q) ≤ queueWeight q := by
    intro q
    induction q with
    | nil => exact Nat.le_refl _
    | cons x q ih =>
      show queueWeight (x.children ++ nextFrontier q) ≤ 2 * x.size + 1 + queueWeight q
      rw [ha]
      have := hc x
      omega
  show queueWeight (t.children ++ nextFrontier frontier) < 2 * t.size + 1 + queueWeight frontier
  rw [ha]
  have h1 := hc t
  have h2 := hn frontier
  omega

/-- The width a breadth-first pass from the root returns. -/
def BST.breadthFirstWidth (t : BST KeyType) : Nat :=
  widthPass (pushIfPresent [] t.root) 0

/-- The keys at depth `d` of the trees of a list, tree after tree. -/
def forestLevelKeys (forest : List (NodePtr KeyType)) (d : Nat) : List KeyType :=
  forest.flatMap (fun t => t.levelKeys d)

/-- Two trees answer every query alike: `size`, `has` for every key, `getLeafCount`,
`getHeight`, `getWidth` and the four traversals under every rendering. -/
def BST.Agree [LinearOrder KeyType] (a b : BST KeyType) : Prop :=
  a.size = b.size ∧ (∀ key, a.has key = b.has key) ∧ a.getLeafCount = b.getLeafCount ∧
    a.getHeight = b.getHeight ∧ a.getWidth = b.getWidth ∧
    ∀ render : KeyType → String,
      a.getPreOrderTraversal render = b.getPreOrderTraversal render ∧
      a.getInOrderTraversal render = b.getInOrderTraversal render ∧
      a.getPostOrderTraversal render = b.getPostOrderTraversal render ∧
      a.getLevelOrderTraversal render = b.getLevelOrderTraversal render

/-! ## The node graph in memory

For the claims about copies the nodes are objects in a memory: a `Node*` is
`none` (`nullptr`) or `some a`, the address of a cell holding the node's key and
its two child pointers. `new Node(...)` writes a cell at an address the allocator
chooses among those holding no live node, `delete` frees a cell, and
`current->left = ...` rewrites the cell of `current`. The recursive helpers take
a fuel that bounds the depth of the recursion and return `none` when it is used
up or a pointer to a freed cell is followed. -/

/-- A `Node` object in memory: its key and its `left` and `right` pointers. -/
structure Cell (KeyType : Type u) where
  key : KeyType
  left : Option Nat
  right : Option Nat
deriving DecidableEq

/-- The memory: the live cells with their addresses, the latest write first. -/
def Heap (KeyType : Type u) : Type u := List (Nat × Cell KeyType)

/-- The node stored at an address, `none` when no live node is there. -/
def Heap.read : Heap KeyType → Nat → Option (Cell KeyType)
  | [], _ => none
  | (b, c) :: h, a => if a = b then some c else Heap.read h a

/-- The memory after storing a node at an address. -/
def Heap.write (h : Heap KeyType) (a : Nat) (c : Cell KeyType) : Heap KeyType :=
  (a, c) :: h

/-- The memory after `delete` of the node at an address. -/
def Heap.free : Heap KeyType → Nat → Heap KeyType
  | [], _ => []
  | (b, c) :: h, a => if b = a then Heap.free h a else (b, c) :: Heap.free h a

/-- `BST::copy(Node*)` (BST.h 497-504) in memory: the two subtrees are copied,
then `new Node(key, left copy, right copy)` is stored at the address `alloc`
chooses. Returns the memory and the pointer to the copy. -/
def Mem.copy (alloc : Heap KeyType → Nat) :
    Nat → Heap KeyType → Option Nat → Option (Heap KeyType × Option Nat)
  | 0, _, _ => none
  | _ + 1, h, none => some (h, none)
  | fuel + 1, h, some a =>
    match h.read a with
    | none => none
    | some c =>
      match Mem.copy alloc fuel h c.left with
      | none => none
      | some (h1, leftCopy) =>
        match Mem.copy alloc fuel h1 c.right with
        | none => none
        | some (h2, rightCopy) =>
          some (h2.write (alloc h2) ⟨c.key, leftCopy, rightCopy⟩, some (alloc h2))

/-- `BST::add(Node*, const KeyType&)` (BST.h 266-280) in memory. On `nullptr` a
leaf is allocated, and the comparisons of `newKey` with its own key are false;
otherwise the recursive call's result is stored in the `left` or `right` field of
the current cell. Returns the memory and `current`. -/
def Mem.add [LinearOrder KeyType] (alloc : Heap KeyType → Nat) :
    Nat → Heap KeyType → Option Nat → KeyType → Option (Heap KeyType × Nat)
  | 0, _, _, _ => none
  | _ + 1, h, none, newKey => some (h.write (alloc h) ⟨newKey, none, none⟩, alloc h)
  | fuel + 1, h, some a, newKey =>
    match h.read a with
    | none => none
    | some c =>
      if newKey < c.key then
        match Mem.add alloc fuel h c.left newKey with
        | none => none
        | some (h1, p) =>
          match h1.read a with
          | none => none
          | some c1 => some (h1.write a ⟨c1.key, some p, c1.right⟩, a)
      else if newKey > c.key then
        match Mem.add alloc fuel h c.right newKey with
        | none => none
        | some (h1, p) =>
          match h1.read a with
          | none => none
          | some c1 => some (h1.write a ⟨c1.key, c1.left, some p⟩, a)
      else some (h, a)

/-- `Node::findMax` (BST.h 237-243) in memory, on the node at address `a`. -/
def Mem.findMax : Nat → Heap KeyType → Nat → Option KeyType
  | 0, _, _ => none
  | fuel + 1, h, a =>
    match h.read a with
    | none => none
    | some c =>
      match c.right with
      | none => some c.key
      | some r => Mem.findMax fuel h r

/-- `BST::remove(Node*, const KeyType&)` (BST.h 315-351) in memory. Returns the
memory and the pointer the caller stores: `current`, or the replacement of the
deleted node. -/
def Mem.remove [LinearOrder KeyType] :
    Nat → Heap KeyType → Option Nat → KeyType → Option (Heap KeyType × Option Nat)
  | 0, _, _, _ => none
  | _ + 1, h, none, _ => some (h, none)
  | fuel + 1, h, some a, key =>
    match h.read a with
    | none => none
    | some c =>
      if key < c.key then
        match Mem.remove fuel h c.left key with
        | none => none
        | some (h1, p) =>
          match h1.read a with
          | none => none
          | some c1 => some (h1.write a ⟨c1.key, p, c1.right⟩, some a)
      else if key > c.key then
        match Mem.remove fuel h c.right key with
        | none => none
        | some (h1, p) =>
          match h1.read a with
          | none => none
          | some c1 => some (h1.write a ⟨c1.key, c1.left, p⟩, some a)
      else
        match c.left, c.right with
        | none, right => some (h.free a, right)
        | some l, none => some (h.free a, some l)
        | some l, some r =>
          match Mem.findMax fuel h l with
          | none => none
          | some m =>
            match Mem.remove fuel (h.write a ⟨m, some l, some r⟩) (some l) m with
            | none => none
            | some (h2, p) =>
              match h2.read a with
              | none => none
              | some c2 => some (h2.write a ⟨c2.key, p, c2.right⟩, some a)

/-- One public call on the object whose root pointer is `root`: `root = add(root,
key)` or `root = remove(root, key)`. Returns the memory and the new root. -/
def Mem.call [LinearOrder KeyType] (alloc : Heap KeyType → Nat) (fuel : Nat)
    (h : Heap KeyType) (root : Option Nat) :
    Call KeyType → Option (Heap KeyType × Option Nat)
  | .add key =>
    match Mem.add alloc fuel h root key with
    | none => none
    | some (h1, p) => some (h1, some p)
  | .remove key => Mem.remove fuel h root key

/-- A sequence of public calls on the object whose root pointer is `root`. -/
def Mem.run [LinearOrder KeyType] (alloc : Heap KeyType → Nat) (fuel : Nat) :
    Heap KeyType → Option Nat → List (Call KeyType) → Option (Heap KeyType × Option Nat)
  | h, root, [] => some (h, root)
  | h, root, c :: calls =>
    match Mem.call alloc fuel h root c with
    | none => none
    | some (h1, root1) => Mem.run alloc fuel h1 root1 calls

/-- The allocator returns an address that holds no live node. -/
def Mem.Fresh (alloc : Heap KeyType → Nat) : Prop :=
  ∀ h : Heap KeyType, h.read (alloc h) = none

/-- An allocator: one more than the greatest address in use. -/
def Mem.bump : Heap KeyType → Nat
  | [] => 0
  | (b, _) :: h => max (b + 1) (Mem.bump h)

/-- The pointer `p` is the root of a node graph in the memory `h` that has the
shape and keys of the tree `t`; `cells` lists the addresses of its nodes, in
pre-order. -/
def Mem.Owns (h : Heap KeyType) : Option Nat → NodePtr KeyType → List Nat → Prop
  | none, .null, cells => cells = []
  | some a, .node key left right, cells =>
    ∃ pl pr cl cr, h.read a = some ⟨key, pl, pr⟩ ∧ Mem.Owns h pl left cl ∧
      Mem.Owns h pr right cr ∧ cells = a :: (cl ++ cr)
  | none, .node _ _ _, _ => False
  | some _, .null, _ => False

/-- The pointer `p` is the root of a tree-shaped node graph of `h` representing
`t`: no node is reached twice. -/
def Mem.Tree (h : Heap KeyType) (p : Option Nat) (t : NodePtr KeyType) (cells : List Nat) :
    Prop :=
  Mem.Owns h p t cells ∧ cells.Nodup

/-- `BST::clear(Node*)` (BST.h 511-517) in memory: the left subtree, then the right
subtree, then `delete current`. Returns the memory. -/
def Mem.clear : Nat → Heap KeyType → Option Nat → Option (Heap KeyType)
  | 0, _, _ => none
  | _ + 1, h, none => some h
  | fuel + 1, h, some a =>
    match h.read a with
    | none => none
    | some c =>
      match Mem.clear fuel h c.left with
      | none => none
      | some h1 =>
        match h1.read a with
        | none => none
        | some c1 =>
          match Mem.clear fuel h1 c1.right with
          | none => none
          | some h2 => some (h2.free a)

/-- The copy constructor `BST(const BST&)` (BST.h 32-34) in memory:
`root = copy(other.root)`. Returns the memory and the root of the new object. -/
def Mem.copyOf (alloc : Heap KeyType → Nat) (fuel : Nat) (h : Heap KeyType)
    (otherRoot : Option Nat) : Option (Heap KeyType × Option Nat) :=
  Mem.copy alloc fuel h otherRoot

/-- The assignment `operator=` (BST.h 43-50) in memory, on the object whose root
pointer is `selfRoot`; `sameObject` is the outcome of the test `this == &rhs`.
Returns the memory and the root of the assigned object. -/
def Mem.assign (alloc : Heap KeyType → Nat) (fuel : Nat) (h : Heap KeyType)
    (selfRoot rhsRoot : Option Nat) (sameObject : Bool) :
    Option (Heap KeyType × Option Nat) :=
  if !sameObject then
    match Mem.clear fuel h selfRoot with
    | none => none
    | some h1 => Mem.copy alloc fuel h1 rhsRoot
  else some (h, selfRoot)

/-- The object with root pointer `q` is as it was in the memory `h`: its node graph
still represents `s`, cell by cell unchanged, so every tree it can be read as
answers every query like `s`. -/
def Mem.Unchanged [LinearOrder KeyType] (h h1 : Heap KeyType) (q : Option Nat)
    (s : NodePtr KeyType) (cells : List Nat) : Prop :=
  Mem.Tree h1 q s cells ∧ (∀ b ∈ cells, h1.read b = h.read b) ∧
    ∀ s1 cells1, Mem.Owns h1 q s1 cells1 → (BST.mk s1).Agree (BST.mk s)

/-- In the memory `h`, the objects with the root pointers `root` and `copyRoot`
both represent `t`, on node graphs that share no cell, and the calls made on either
of them run to the end, give that object the tree the calls give `t`, and leave the
other object unchanged. -/
def Mem.IndependentCopy [LinearOrder KeyType] (alloc : Heap KeyType → Nat) (fuel : Nat)
    (h : Heap KeyType) (root copyRoot : Option Nat) (t : NodePtr KeyType)
    (cells : List Nat) (calls : List (Call KeyType)) : Prop :=
  ∃ copyCells, Mem.Tree h root t cells ∧ Mem.Tree h copyRoot t copyCells ∧
    (∀ b ∈ copyCells, b ∉ cells) ∧
    (∃ h1 p1 cells1, Mem.run alloc fuel h copyRoot calls = some (h1, p1) ∧
      Mem.Tree h1 p1 ((BST.mk t).run calls).root cells1 ∧
      Mem.Unchanged h h1 root t cells) ∧
    ∃ h1 p1 cells1, Mem.run alloc fuel h root calls = some (h1, p1) ∧
      Mem.Tree h1 p1 ((BST.mk t).run calls).root cells1 ∧
      Mem.Unchanged h h1 copyRoot t copyCells

instance NodePtr.decidableAll (p : KeyType → Prop) [DecidablePred p] :
    (t : NodePtr KeyType) → Decidable (NodePtr.All p t)
  | .null => isTrue trivial
  | .node key left right =>
    have := NodePtr.decidableAll p left
    have := NodePtr.decidableAll p right
    inferInstanceAs (Decidable (p key ∧ NodePtr.All p left ∧ NodePtr.All p right))

instance NodePtr.decidableOrdered [LT KeyType] [DecidableRel (fun (a b : KeyType) => a < b)] :
    (t : NodePtr KeyType) → Decidable (NodePtr.Ordered t)
  | .null => isTrue trivial
  | .node key left right =>
    have := NodePtr.decidableOrdered left
    have := NodePtr.decidableOrdered right
    inferInstanceAs (Decidable (NodePtr.All (fun x => x < key) left ∧
      NodePtr.All (fun x => key < x) right ∧ NodePtr.Ordered left ∧ NodePtr.Ordered right))

instance BST.decidableOrdered [LT KeyType] [DecidableRel (fun (a b : KeyType) => a < b)]
    (t : BST KeyType) : Decidable t.Ordered :=
  NodePtr.decidableOrdered t.root

/-! ## Lemmas on `All`, `add` and the ordering invariant -/

theorem NodePtr.All.imp {p q : KeyType → Prop} (h : ∀ x, p x → q x) :
    ∀ {t : NodePtr KeyType}, t.All p → t.All q
  | .null, _ => trivial
  | .node _ _ _, ⟨hk, hl, hr⟩ => ⟨h _ hk, NodePtr.All.imp h hl, NodePtr.All.imp h hr⟩

theorem NodePtr.all_iff_inOrderKeys (p : KeyType → Prop) (t : NodePtr KeyType) :
    t.All p ↔ ∀ x ∈ t.inOrderKeys, p x := by
  induction t with
  | null => simp [NodePtr.All, NodePtr.inOrderKeys]
  | node key left right ihl ihr =>
    simp only [NodePtr.All, NodePtr.inOrderKeys, ihl, ihr, List.mem_append, List.mem_cons]
    constructor
    · rintro ⟨hk, hl, hr⟩ x (hx | rfl | hx)
      · exact hl x hx
      · exact hk
      · exact hr x hx
    · intro h
      exact ⟨h _ (Or.inr (Or.inl rfl)), fun x hx => h x (Or.inl hx),
        fun x hx => h x (Or.inr (Or.inr hx))⟩

section Order

variable [LinearOrder KeyType]

theorem NodePtr.all_add {p : KeyType → Prop} {t : NodePtr KeyType} {k : KeyType}
    (ht : t.All p) (hk : p k) : (t.add k).All p := by
  induction t with
  | null => exact ⟨hk, trivial, trivial⟩
  | node key left right ihl ihr =>
    obtain ⟨h1, h2, h3⟩ := ht
    simp only [NodePtr.add]
    split_ifs
    · exact ⟨h1, ihl h2, h3⟩
    · exact ⟨h1, h2, ihr h3⟩
    · exact ⟨h1, h2, h3⟩

theorem NodePtr.ordered_add {t : NodePtr KeyType} (k : KeyType) (ht : t.Ordered) :
    (t.add k).Ordered := by
  induction t with
  | null => exact ⟨trivial, trivial, trivial, trivial⟩
  | node key left right ihl ihr =>
    obtain ⟨h1, h2, h3, h4⟩ := ht
    simp only [NodePtr.add]
    split_ifs with hlt hgt
    · exact ⟨NodePtr.all_add h1 hlt, h2, ihl h3, h4⟩
    · exact ⟨h1, NodePtr.all_add h2 hgt, h3, ihr h4⟩
    · exact ⟨h1, h2, h3, h4⟩

omit [LinearOrder KeyType] in
theorem Node.all_findMax {p : KeyType → Prop} {key : KeyType} {right : NodePtr KeyType}
    (hk : p key) (hr : right.All p) : p (Node.findMax key right) := by
  induction right generalizing key with
  | null => exact hk
  | node rkey rleft rright _ ihr => exact ihr hr.1 hr.2.2

/-- The body of `remove` at a node, before the case split on the children. -/
theorem NodePtr.remove_node (ckey : KeyType) (left right : NodePtr KeyType) (key : KeyType) :
    (NodePtr.node ckey left right).remove key =
      if key < ckey then .node ckey (left.remove key) right
      else if key > ckey then .node ckey left (right.remove key)
      else
        match left, right with
        | .null, right => right
        | .node lkey lleft lright, .null => .node lkey lleft lright
        | .node lkey lleft lright, .node rkey rleft rright =>
          .node (Node.findMax lkey lright)
            ((NodePtr.node lkey lleft lright).remove (Node.findMax lkey lright))
            (.node rkey rleft rright) := by
  rw [NodePtr.remove.eq_def]

theorem NodePtr.all_remove {p : KeyType → Prop} {t : NodePtr KeyType} (k : KeyType)
    (ht : t.All p) : (t.remove k).All p := by
  induction t generalizing k with
  | null => trivial
  | node key left right ihl ihr =>
    obtain ⟨h1, h2, h3⟩ := ht
    rw [NodePtr.remove_node]
    split_ifs
    · exact ⟨h1, ihl k h2, h3⟩
    · exact ⟨h1, h2, ihr k h3⟩
    · cases left with
      | null => exact h3
      | node lkey lleft lright =>
        cases right with
        | null => exact h2
        | node rkey rleft rright =>
          exact ⟨Node.all_findMax h2.1 h2.2.2, ihl _ h2, h3⟩

/-- In an ordered node, removing the key `findMax` returns is dropping the
right-most node. -/
theorem Node.remove_findMax {key : KeyType} (left : NodePtr KeyType) {right : NodePtr KeyType}
    (hr : right.All (fun x => key < x)) (ho : right.Ordered) :
    (NodePtr.node key left right).remove (Node.findMax key right) =
      Node.dropRightmost key left right := by
  induction right generalizing key left with
  | null =>
    cases left <;> simp [NodePtr.remove_node, Node.findMax, Node.dropRightmost]
  | node rkey rleft rright _ ihr =>
    have hlt : key < Node.findMax rkey rright := Node.all_findMax hr.1 hr.2.2
    have ih := ihr rleft ho.2.1 ho.2.2.2
    simp only [Node.findMax] at ih ⊢
    rw [NodePtr.remove_node, if_neg (not_lt_of_gt hlt), if_pos hlt, ih]
    rfl

theorem Node.all_lt_dropRightmost {key : KeyType} {left right : NodePtr KeyType}
    (hl : left.All (fun x => x < key)) (hr : right.All (fun x => key < x))
    (ho : right.Ordered) :
    (Node.dropRightmost key left right).All (fun x => x < Node.findMax key right) := by
  induction right generalizing key left with
  | null => exact hl
  | node rkey rleft rright _ ihr =>
    have hlt : key < Node.findMax rkey rright := Node.all_findMax hr.1 hr.2.2
    exact ⟨hlt, NodePtr.All.imp (fun x hx => lt_trans hx hlt) hl,
      ihr ho.1 ho.2.1 ho.2.2.2⟩

theorem NodePtr.ordered_remove {t : NodePtr KeyType} (k : KeyType) (ht : t.Ordered) :
    (t.remove k).Ordered := by
  induction t generalizing k with
  | null => trivial
  | node key left right ihl ihr =>
    obtain ⟨h1, h2, h3, h4⟩ := ht
    rw [NodePtr.remove_node]
    split_ifs
    · exact ⟨NodePtr.all_remove k h1, h2, ihl k h3, h4⟩
    · exact ⟨h1, NodePtr.all_remove k h2, h3, ihr k h4⟩
    · cases left with
      | null => exact h4
      | node lkey lleft lright =>
        cases right with
        | null => exact h3
        | node rkey rleft rright =>
          have hm : Node.findMax lkey lright < key :=
            @Node.all_findMax _ (fun x => x < key) _ _ h1.1 h1.2.2
          refine ⟨?_, NodePtr.All.imp (fun x hx => lt_trans hm hx) h2, ihl _ h3, h4⟩
          rw [Node.remove_findMax lleft h3.2.1 h3.2.2.2]
          exact Node.all_lt_dropRightmost h3.1 h3.2.1 h3.2.2.2

/-! ## The in-order key sequence as abstraction of an ordered tree -/

omit [LinearOrder KeyType] in
theorem NodePtr.size_eq_length (t : NodePtr KeyType) : t.size = t.inOrderKeys.length := by
  induction t with
  | null => rfl
  | node key left right ihl ihr =>
    simp only [NodePtr.size, NodePtr.inOrderKeys, List.length_append, List.length_cons, ihl, ihr]
    omega

omit [LinearOrder KeyType] in
theorem Node.inOrderKeys_dropRightmost (key : KeyType) (left right : NodePtr KeyType) :
    (Node.dropRightmost key left right).inOrderKeys ++ [Node.findMax key right] =
      (NodePtr.node key left right).inOrderKeys := by
  induction right generalizing key left with
  | null => simp [Node.dropRightmost, Node.findMax, NodePtr.inOrderKeys]
  | node rkey rleft rright _ ihr =>
    have ih := ihr rkey rleft
    simp only [NodePtr.inOrderKeys] at ih
    simp only [Node.dropRightmost, Node.findMax, NodePtr.inOrderKeys, List.append_assoc,
      List.cons_append, ih]

theorem NodePtr.ordered_iff_sorted (t : NodePtr KeyType) :
    t.Ordered ↔ t.inOrderKeys.Sorted (fun a b => a < b) := by
  induction t with
  | null => simp [NodePtr.Ordered, NodePtr.inOrderKeys]
  | node key left right ihl ihr =>
    simp only [NodePtr.Ordered, NodePtr.inOrderKeys, List.Sorted, List.pairwise_append,
      List.pairwise_cons, NodePtr.all_iff_inOrderKeys, List.mem_cons] at ihl ihr ⊢
    rw [ihl, ihr]
    constructor
    · rintro ⟨h1, h2, h3, h4⟩
      refine ⟨h3, ⟨h2, h4⟩, ?_⟩
      rintro a ha b (rfl | hb)
      · exact h1 a ha
      · exact lt_trans (h1 a ha) (h2 b hb)
    · rintro ⟨h3, ⟨h2, h4⟩, h⟩
      exact ⟨fun a ha => h a ha key (Or.inl rfl), h2, h3, h4⟩

theorem NodePtr.has_iff_mem {t : NodePtr KeyType} (ht : t.Ordered) (j : KeyType) :
    t.has j = true ↔ j ∈ t.inOrderKeys := by
  induction t with
  | null => simp [NodePtr.has, NodePtr.inOrderKeys]
  | node key left right ihl ihr =>
    obtain ⟨h1, h2, h3, h4⟩ := ht
    rw [NodePtr.all_iff_inOrderKeys] at h1 h2
    simp only [NodePtr.has, NodePtr.inOrderKeys, List.mem_append, List.mem_cons]
    split_ifs with hlt hgt
    · rw [ihl h3]
      constructor
      · exact Or.inl
      · rintro (h | rfl | h)
        · exact h
        · exact absurd hlt (lt_irrefl _)
        · exact absurd (h2 j h) (lt_asymm hlt)
    · rw [ihr h4]
      constructor
      · exact fun h => Or.inr (Or.inr h)
      · rintro (h | rfl | h)
        · exact absurd (h1 j h) (lt_asymm hgt)
        · exact absurd hgt (lt_irrefl _)
        · exact h
    · simp only [true_iff]
      exact Or.inr (Or.inl (le_antisymm (not_lt.mp hgt) (not_lt.mp hlt)))

omit [LinearOrder KeyType] in
theorem filter_ne_append_cons [DecidableEq KeyType] {k c : KeyType} {ls rs : List KeyType}
    (hl : ∀ x ∈ ls, x ≠ k) (hr : ∀ x ∈ rs, x ≠ k) :
    (ls ++ c :: rs).filter (fun x => decide (x ≠ k)) =
      if c = k then ls ++ rs else ls ++ c :: rs := by
  have el : ls.filter (fun x => decide (x ≠ k)) = ls :=
    List.filter_eq_self.mpr (fun x hx => decide_eq_true (hl x hx))
  have er : rs.filter (fun x => decide (x ≠ k)) = rs :=
    List.filter_eq_self.mpr (fun x hx => decide_eq_true (hr x hx))
  by_cases hc : c = k
  · rw [if_pos hc, List.filter_append, el, List.filter_cons_of_neg (by simpa using hc), er]
  · rw [if_neg hc, List.filter_append, el, List.filter_cons_of_pos (by simpa using hc), er]

/-- On an ordered tree `remove` deletes the key from the in-order key sequence and
keeps every other key in place. -/
theorem NodePtr.inOrderKeys_remove {t : NodePtr KeyType} (ht : t.Ordered) (k : KeyType) :
    (t.remove k).inOrderKeys = t.inOrderKeys.filter (fun x => decide (x ≠ k)) := by
  induction t generalizing k with
  | null => rfl
  | node key left right ihl ihr =>
    obtain ⟨h1, h2, h3, h4⟩ := ht
    have g1 := (NodePtr.all_iff_inOrderKeys _ _).mp h1
    have g2 := (NodePtr.all_iff_inOrderKeys _ _).mp h2
    rw [NodePtr.remove_node]
    split_ifs with hlt hgt
    · have hr : right.inOrderKeys.filter (fun x => decide (x ≠ k)) = right.inOrderKeys :=
        List.filter_eq_self.mpr
          (fun x hx => decide_eq_true (ne_of_gt (lt_trans hlt (g2 x hx))))
      have hc : key ≠ k := ne_of_gt hlt
      simp only [NodePtr.inOrderKeys, ihl h3, List.filter_append, List.filter_cons, hr, hc,
        ne_eq, not_false_eq_true, decide_True, if_true]
    · have hl : left.inOrderKeys.filter (fun x => decide (x ≠ k)) = left.inOrderKeys :=
        List.filter_eq_self.mpr
          (fun x hx => decide_eq_true (ne_of_lt (lt_trans (g1 x hx) hgt)))
      have hc : key ≠ k := ne_of_lt hgt
      simp only [NodePtr.inOrderKeys, ihr h4, List.filter_append, List.filter_cons, hl, hc,
        ne_eq, not_false_eq_true, decide_True, if_true]
    · have hk : key = k := le_antisymm (not_lt.mp hlt) (not_lt.mp hgt)
      subst hk
      have e : (NodePtr.node key left right).inOrderKeys.filter (fun x => decide (x ≠ key)) =
          left.inOrderKeys ++ right.inOrderKeys := by
        have := filter_ne_append_cons (c := key) (fun x hx => ne_of_lt (g1 x hx))
          (fun x hx => ne_of_gt (g2 x hx))
        rw [if_pos rfl] at this
        exact this
      rw [e]
      cases left with
      | null => rfl
      | node lkey lleft lright =>
        cases right with
        | null => simp [NodePtr.inOrderKeys]
        | node rkey rleft rright =>
          show NodePtr.inOrderKeys (NodePtr.node _ _ _) = _
          rw [Node.remove_findMax lleft h3.2.1 h3.2.2.2, NodePtr.inOrderKeys,
            ← Node.inOrderKeys_dropRightmost lkey lleft lright]
          simp

theorem NodePtr.mem_inOrderKeys_add (t : NodePtr KeyType) (k j : KeyType) :
    j ∈ (t.add k).inOrderKeys ↔ j = k ∨ j ∈ t.inOrderKeys := by
  induction t with
  | null => simp [NodePtr.add, NodePtr.inOrderKeys]
  | node key left right ihl ihr =>
    simp only [NodePtr.add]
    split_ifs
    · simp only [NodePtr.inOrderKeys, List.mem_append, List.mem_cons, ihl]
      tauto
    · simp only [NodePtr.inOrderKeys, List.mem_append, List.mem_cons, ihr]
      tauto
    · have hk : k = key := le_antisymm (not_lt.mp ‹¬k > key›) (not_lt.mp ‹¬k < key›)
      subst hk
      simp only [NodePtr.inOrderKeys, List.mem_append, List.mem_cons]
      tauto

/-! ## `add` of a present key, `remove` of an absent key -/

theorem NodePtr.add_eq_self_of_has {t : NodePtr KeyType} {k : KeyType} (h : t.has k = true) :
    t.add k = t := by
  induction t with
  | null => simp [NodePtr.has] at h
  | node key left right ihl ihr =>
    simp only [NodePtr.has] at h
    simp only [NodePtr.add]
    split_ifs at h ⊢
    · rw [ihl h]
    · rw [ihr h]
    · rfl

theorem NodePtr.has_add_self (t : NodePtr KeyType) (k : KeyType) : (t.add k).has k = true := by
  induction t with
  | null => simp [NodePtr.add, NodePtr.has]
  | node key left right ihl ihr =>
    simp only [NodePtr.add]
    split_ifs with h1 h2
    · simp only [NodePtr.has, if_pos h1, ihl]
    · simp only [NodePtr.has, if_neg h1, if_pos h2, ihr]
    · simp only [NodePtr.has, if_neg h1, if_neg h2]

theorem NodePtr.add_add (t : NodePtr KeyType) (k : KeyType) : (t.add k).add k = t.add k :=
  NodePtr.add_eq_self_of_has (NodePtr.has_add_self t k)

theorem NodePtr.remove_eq_self_of_not_has {t : NodePtr KeyType} {k : KeyType}
    (h : t.has k = false) : t.remove k = t := by
  induction t with
  | null => rfl
  | node key left right ihl ihr =>
    simp only [NodePtr.has] at h
    rw [NodePtr.remove_node]
    split_ifs at h ⊢
    · rw [ihl h]
    · rw [ihr h]

/-! ## Membership after `add` and `remove` -/

theorem NodePtr.has_add {t : NodePtr KeyType} (ht : t.Ordered) (k j : KeyType) :
    (t.add k).has j = true ↔ j = k ∨ t.has j = true := by
  rw [NodePtr.has_iff_mem (NodePtr.ordered_add k ht), NodePtr.has_iff_mem ht,
    NodePtr.mem_inOrderKeys_add]

theorem NodePtr.has_remove {t : NodePtr KeyType} (ht : t.Ordered) (k j : KeyType) :
    (t.remove k).has j = true ↔ j ≠ k ∧ t.has j = true := by
  rw [NodePtr.has_iff_mem (NodePtr.ordered_remove k ht), NodePtr.has_iff_mem ht,
    NodePtr.inOrderKeys_remove ht, List.mem_filter, decide_eq_true_eq, and_comm]

/-! ## Size after `add` and `remove` -/

theorem NodePtr.size_add (t : NodePtr KeyType) (k : KeyType) :
    (t.add k).size = if t.has k = true then t.size else t.size + 1 := by
  induction t with
  | null => simp [NodePtr.add, NodePtr.has, NodePtr.size]
  | node key left right ihl ihr =>
    by_cases h1 : k < key
    · simp only [NodePtr.add, NodePtr.has, if_pos h1, NodePtr.size, ihl]
      split_ifs <;> omega
    · by_cases h2 : k > key
      · simp only [NodePtr.add, NodePtr.has, if_neg h1, if_pos h2, NodePtr.size, ihr]
        split_ifs <;> omega
      · simp only [NodePtr.add, NodePtr.has, if_neg h1, if_neg h2, if_true]

theorem NodePtr.nodup_inOrderKeys {t : NodePtr KeyType} (ht : t.Ordered) :
    t.inOrderKeys.Nodup :=
  ((NodePtr.ordered_iff_sorted t).mp ht).imp (fun h => ne_of_lt h)

theorem NodePtr.size_remove {t : NodePtr KeyType} (ht : t.Ordered) (k : KeyType) :
    (t.remove k).size = if t.has k = true then t.size - 1 else t.size := by
  by_cases h : t.has k = true
  · have e : (fun x => decide (x ≠ k)) = (fun x => x != k) := by
      funext x
      by_cases hx : x = k <;> simp [hx]
    rw [if_pos h, NodePtr.size_eq_length, NodePtr.size_eq_length, NodePtr.inOrderKeys_remove ht,
      e, ← (NodePtr.nodup_inOrderKeys ht).erase_eq_filter,
      List.length_erase_of_mem ((NodePtr.has_iff_mem ht k).mp h)]
  · rw [if_neg h, NodePtr.remove_eq_self_of_not_has (by simpa using h)]

theorem NodePtr.size_pos_of_has {t : NodePtr KeyType} {k : KeyType} (h : t.has k = true) :
    0 < t.size := by
  cases t with
  | null => simp [NodePtr.has] at h
  | node key left right => simp only [NodePtr.size]; omega

/-! ## Sequences of calls -/

theorem BST.ordered_run {t : BST KeyType} (ht : t.Ordered) (calls : List (Call KeyType)) :
    (t.run calls).Ordered := by
  induction calls generalizing t with
  | nil => exact ht
  | cons c calls ih =>
    cases c with
    | add key => exact ih (NodePtr.ordered_add key ht)
    | remove key => exact ih (NodePtr.ordered_remove key ht)

theorem NodePtr.toFinset_add (t : NodePtr KeyType) (k : KeyType) :
    (t.add k).inOrderKeys.toFinset = insert k t.inOrderKeys.toFinset := by
  ext j
  simp only [List.mem_toFinset, Finset.mem_insert, NodePtr.mem_inOrderKeys_add]

theorem NodePtr.toFinset_remove {t : NodePtr KeyType} (ht : t.Ordered) (k : KeyType) :
    (t.remove k).inOrderKeys.toFinset = t.inOrderKeys.toFinset.erase k := by
  ext j
  simp only [List.mem_toFinset, Finset.mem_erase, NodePtr.inOrderKeys_remove ht, List.mem_filter,
    decide_eq_true_eq, and_comm]

theorem BST.toFinset_run {t : BST KeyType} (ht : t.Ordered) (calls : List (Call KeyType)) :
    (t.run calls).root.inOrderKeys.toFinset = Call.keySet t.root.inOrderKeys.toFinset calls := by
  induction calls generalizing t with
  | nil => rfl
  | cons c calls ih =>
    cases c with
    | add key =>
      have := ih (t := t.add key) (NodePtr.ordered_add key ht)
      rw [BST.add, NodePtr.toFinset_add] at this
      exact this
    | remove key =>
      have := ih (t := t.remove key) (NodePtr.ordered_remove key ht)
      rw [BST.remove, NodePtr.toFinset_remove ht] at this
      exact this

theorem BST.size_eq_card {t : BST KeyType} (ht : t.Ordered) :
    t.size = t.root.inOrderKeys.toFinset.card := by
  rw [List.toFinset_card_of_nodup (NodePtr.nodup_inOrderKeys ht)]
  exact NodePtr.size_eq_length t.root

theorem BST.size_run {t : BST KeyType} (ht : t.Ordered) (calls : List (Call KeyType)) :
    (t.run calls).size + t.removesOfPresent calls = t.size + t.addsOfAbsent calls := by
  induction calls generalizing t with
  | nil => rfl
  | cons c calls ih =>
    cases c with
    | add key =>
      have h := ih (t := t.add key) (NodePtr.ordered_add key ht)
      have hs : (t.add key).size = if t.has key = true then t.size else t.size + 1 :=
        NodePtr.size_add t.root key
      simp only [BST.run, List.foldl_cons, BST.call, BST.removesOfPresent, BST.addsOfAbsent]
        at h ⊢
      split_ifs at hs ⊢ <;> omega
    | remove key =>
      have h := ih (t := t.remove key) (NodePtr.ordered_remove key ht)
      have hs : (t.remove key).size = if t.has key = true then t.size - 1 else t.size :=
        NodePtr.size_remove ht key
      have hp : t.has key = true → 0 < t.size := fun hk => NodePtr.size_pos_of_has hk
      simp only [BST.run, List.foldl_cons, BST.call, BST.removesOfPresent, BST.addsOfAbsent]
        at h ⊢
      split_ifs at hs ⊢ with hk
      · have := hp hk
        omega
      · omega

/-! ## Traversal text and key sequences -/

omit [LinearOrder KeyType] in
theorem writeKeys_append (render : KeyType → String) (ss : String) (xs ys : List KeyType) :
    writeKeys render ss (xs ++ ys) = writeKeys render (writeKeys render ss xs) ys := by
  induction xs generalizing ss with
  | nil => rfl
  | cons x xs ih => exact ih _

omit [LinearOrder KeyType] in
theorem NodePtr.getInOrderTraversal_eq (render : KeyType → String) (t : NodePtr KeyType)
    (ss : String) : t.getInOrderTraversal render ss = writeKeys render ss t.inOrderKeys := by
  induction t generalizing ss with
  | null => rfl
  | node key left right ihl ihr =>
    simp only [NodePtr.getInOrderTraversal, NodePtr.inOrderKeys, writeKeys_append, writeKeys,
      ihl, ihr]

omit [LinearOrder KeyType] in
theorem NodePtr.getPreOrderTraversal_eq (render : KeyType → String) (t : NodePtr KeyType)
    (ss : String) : t.getPreOrderTraversal render ss = writeKeys render ss t.preOrderKeys := by
  induction t generalizing ss with
  | null => rfl
  | node key left right ihl ihr =>
    simp only [NodePtr.getPreOrderTraversal, NodePtr.preOrderKeys, writeKeys_append, writeKeys,
      ihl, ihr]

/-! ## Building a tree from a list of keys -/

theorem BST.ordered_foldl_add {t : BST KeyType} (ht : t.Ordered) (keys : List KeyType) :
    (keys.foldl BST.add t).Ordered := by
  induction keys generalizing t with
  | nil => exact ht
  | cons k keys ih => exact ih (NodePtr.ordered_add k ht)

theorem BST.mem_foldl_add (t : BST KeyType) (keys : List KeyType) (j : KeyType) :
    j ∈ (keys.foldl BST.add t).root.inOrderKeys ↔ j ∈ keys ∨ j ∈ t.root.inOrderKeys := by
  induction keys generalizing t with
  | nil => simp
  | cons k keys ih =>
    rw [List.foldl_cons, ih, BST.add, NodePtr.mem_inOrderKeys_add, List.mem_cons]
    tauto

theorem BST.ordered_build (keys : List KeyType) : (BST.build keys).Ordered :=
  BST.ordered_foldl_add (t := BST.new) trivial keys

theorem BST.mem_build (keys : List KeyType) (j : KeyType) :
    j ∈ (BST.build keys).root.inOrderKeys ↔ j ∈ keys := by
  rw [BST.build, BST.mem_foldl_add]
  simp [BST.new, NodePtr.inOrderKeys]

theorem BST.perm_build {keys : List KeyType} (hk : keys.Nodup) :
    (BST.build keys).root.inOrderKeys.Perm keys :=
  (List.perm_ext_iff_of_nodup (NodePtr.nodup_inOrderKeys (BST.ordered_build keys)) hk).mpr
    (BST.mem_build keys)

theorem BST.inOrderKeys_build {keys : List KeyType} (hk : keys.Nodup) :
    (BST.build keys).root.inOrderKeys = keys.insertionSort (fun a b => a ≤ b) := by
  refine List.eq_of_perm_of_sorted (r := fun a b => a ≤ b)
    ((BST.perm_build hk).trans (List.perm_insertionSort _ keys).symm) ?_
    (List.sorted_insertionSort _ keys)
  exact ((NodePtr.ordered_iff_sorted _).mp (BST.ordered_build keys)).imp (fun h => le_of_lt h)

/-! ## Removal at a node with two children -/

theorem Node.remove_two_children {key lkey rkey : KeyType}
    {lleft lright rleft rright : NodePtr KeyType}
    (ht : (NodePtr.node key (.node lkey lleft lright) (.node rkey rleft rright)).Ordered) :
    (NodePtr.node key (.node lkey lleft lright) (.node rkey rleft rright)).remove key =
      .node (Node.findMax lkey lright) (Node.dropRightmost lkey lleft lright)
        (.node rkey rleft rright) := by
  rw [NodePtr.remove_node, if_neg (lt_irrefl key), if_neg (lt_irrefl key)]
  show NodePtr.node _ _ _ = _
  rw [Node.remove_findMax lleft ht.2.2.1.2.1 ht.2.2.1.2.2.2]

omit [LinearOrder KeyType] in
theorem NodePtr.all_subtreeAt {p : KeyType → Prop} {t : NodePtr KeyType} (ht : t.All p)
    (path : List Dir) : (t.subtreeAt path).All p := by
  induction path generalizing t with
  | nil => simpa only [NodePtr.subtreeAt] using ht
  | cons d path ih =>
    cases t with
    | null => trivial
    | node key left right =>
      cases d with
      | left => exact ih ht.2.1
      | right => exact ih ht.2.2

omit [LinearOrder KeyType] in
theorem NodePtr.ordered_subtreeAt [LT KeyType] {t : NodePtr KeyType} (ht : t.Ordered)
    (path : List Dir) : (t.subtreeAt path).Ordered := by
  induction path generalizing t with
  | nil => simpa only [NodePtr.subtreeAt] using ht
  | cons d path ih =>
    cases t with
    | null => trivial
    | node key left right =>
      cases d with
      | left => exact ih ht.2.2.1
      | right => exact ih ht.2.2.2

/-- In an ordered tree, removing the key stored at a position is removing it in the
subtree at that position, the rest of the tree being kept. -/
theorem NodePtr.remove_at {t : NodePtr KeyType} (ht : t.Ordered) (path : List Dir)
    {k : KeyType} {l r : NodePtr KeyType} (hp : t.subtreeAt path = .node k l r) :
    t.remove k = t.replaceAt path ((NodePtr.node k l r).remove k) := by
  induction path generalizing t with
  | nil =>
    simp only [NodePtr.subtreeAt] at hp
    rw [hp]
    rfl
  | cons d path ih =>
    cases t with
    | null => simp [NodePtr.subtreeAt] at hp
    | node key left right =>
      obtain ⟨h1, h2, h3, h4⟩ := ht
      cases d with
      | left =>
        simp only [NodePtr.subtreeAt] at hp
        have hk : k < key := by
          have := NodePtr.all_subtreeAt h1 path
          rw [hp] at this
          exact this.1
        rw [NodePtr.remove_node, if_pos hk, ih h3 hp]
        rfl
      | right =>
        simp only [NodePtr.subtreeAt] at hp
        have hk : key < k := by
          have := NodePtr.all_subtreeAt h2 path
          rw [hp] at this
          exact this.1
        rw [NodePtr.remove_node, if_neg (lt_asymm hk), if_pos hk, ih h4 hp]
        rfl

omit [LinearOrder KeyType] in
theorem Node.findMax_mem (key : KeyType) (left right : NodePtr KeyType) :
    Node.findMax key right ∈ (NodePtr.node key left right).inOrderKeys := by
  rw [← Node.inOrderKeys_dropRightmost]
  simp

theorem Node.le_findMax {key : KeyType} {left right : NodePtr KeyType}
    (ht : (NodePtr.node key left right).Ordered) :
    ∀ x ∈ (NodePtr.node key left right).inOrderKeys, x ≤ Node.findMax key right := by
  have hs := (NodePtr.ordered_iff_sorted _).mp ht
  rw [← Node.inOrderKeys_dropRightmost, List.Sorted, List.pairwise_append] at hs
  intro x hx
  rw [← Node.inOrderKeys_dropRightmost, List.mem_append, List.mem_singleton] at hx
  rcases hx with hx | rfl
  · exact le_of_lt (hs.2.2 x hx _ (List.mem_singleton_self _))
  · exact le_refl _

omit [LinearOrder KeyType] in
theorem NodePtr.subtreeAt_replaceAt {t : NodePtr KeyType} (path : List Dir)
    {k : KeyType} {l r : NodePtr KeyType} (hp : t.subtreeAt path = .node k l r)
    (s : NodePtr KeyType) : (t.replaceAt path s).subtreeAt path = s := by
  induction path generalizing t with
  | nil => simp only [NodePtr.replaceAt, NodePtr.subtreeAt]
  | cons d path ih =>
    cases t with
    | null => simp [NodePtr.subtreeAt] at hp
    | node key left right =>
      cases d with
      | left => exact ih hp
      | right => exact ih hp

end Order

section MoreOrder

variable [LinearOrder KeyType]

/-! ## `add` of an absent key attaches a leaf -/

theorem NodePtr.add_eq_replaceAt {t : NodePtr KeyType} {k : KeyType} (h : t.has k = false) :
    ∃ path : List Dir, t.subtreeAt path = .null ∧
      t.add k = t.replaceAt path (.node k .null .null) ∧
      (t.add k).subtreeAt path = .node k .null .null := by
  induction t with
  | null => exact ⟨[], rfl, rfl, rfl⟩
  | node key left right ihl ihr =>
    simp only [NodePtr.has] at h
    by_cases h1 : k < key
    · rw [if_pos h1] at h
      obtain ⟨path, hp, ha, hs⟩ := ihl h
      refine ⟨.left :: path, hp, ?_, ?_⟩
      · simp only [NodePtr.add, if_pos h1, NodePtr.replaceAt, ha]
      · simp only [NodePtr.add, if_pos h1, NodePtr.subtreeAt, hs]
    · by_cases h2 : k > key
      · rw [if_neg h1, if_pos h2] at h
        obtain ⟨path, hp, ha, hs⟩ := ihr h
        refine ⟨.right :: path, hp, ?_, ?_⟩
        · simp only [NodePtr.add, if_neg h1, if_pos h2, NodePtr.replaceAt, ha]
        · simp only [NodePtr.add, if_neg h1, if_pos h2, NodePtr.subtreeAt, hs]
      · rw [if_neg h1, if_neg h2] at h
        exact absurd h (by decide)

theorem NodePtr.remove_add {t : NodePtr KeyType} {k : KeyType} (h : t.has k = false) :
    (t.add k).remove k = t := by
  induction t with
  | null =>
    rw [NodePtr.add, NodePtr.remove_node, if_neg (lt_irrefl k), if_neg (lt_irrefl k)]
  | node key left right ihl ihr =>
    simp only [NodePtr.has] at h
    by_cases h1 : k < key
    · rw [if_pos h1] at h
      rw [NodePtr.add, if_pos h1, NodePtr.remove_node, if_pos h1, ihl h]
    · by_cases h2 : k > key
      · rw [if_neg h1, if_pos h2] at h
        rw [NodePtr.add, if_neg h1, if_pos h2, NodePtr.remove_node, if_neg h1, if_pos h2, ihr h]
      · rw [if_neg h1, if_neg h2] at h
        exact absurd h (by decide)

/-! ## Removing the keys of a list -/

theorem BST.ordered_removeAll {t : BST KeyType} (ht : t.Ordered) (keys : List KeyType) :
    (t.removeAll keys).Ordered := by
  induction keys generalizing t with
  | nil => exact ht
  | cons k keys ih => exact ih (NodePtr.ordered_remove k ht)

theorem BST.inOrderKeys_removeAll {t : BST KeyType} (ht : t.Ordered) (keys : List KeyType) :
    (t.removeAll keys).root.inOrderKeys =
      t.root.inOrderKeys.filter (fun x => decide (x ∉ keys)) := by
  induction keys generalizing t with
  | nil => simp [BST.removeAll]
  | cons k keys ih =>
    have h := ih (t := t.remove k) (NodePtr.ordered_remove k ht)
    have hk : (t.remove k).root.inOrderKeys =
        t.root.inOrderKeys.filter (fun x => decide (x ≠ k)) := NodePtr.inOrderKeys_remove ht k
    rw [hk, List.filter_filter] at h
    rw [BST.removeAll, List.foldl_cons]
    rw [BST.removeAll] at h
    rw [h]
    congr 1
    funext x
    simp only [List.mem_cons, not_or, Bool.decide_and, Bool.and_comm]

omit [LinearOrder KeyType] in
theorem NodePtr.eq_null_of_inOrderKeys_eq_nil {t : NodePtr KeyType} (h : t.inOrderKeys = []) :
    t = .null := by
  cases t with
  | null => rfl
  | node key left right => simp [NodePtr.inOrderKeys] at h

theorem BST.removeAll_build (keys : List KeyType) :
    (BST.build keys).removeAll keys = BST.new := by
  have h := BST.inOrderKeys_removeAll (BST.ordered_build keys) keys
  have hnil : ((BST.build keys).removeAll keys).root.inOrderKeys = [] := by
    rw [h, List.filter_eq_nil_iff]
    intro x hx
    simpa using (BST.mem_build keys x).mp hx
  have := NodePtr.eq_null_of_inOrderKeys_eq_nil hnil
  cases hb : (BST.build keys).removeAll keys with
  | mk root =>
    rw [hb] at this
    exact congrArg BST.mk this

end MoreOrder

section Traversals

/-! ## Traversal text -/

theorem foldl_append_eq (acc : String) (l : List String) :
    l.foldl (fun r s => r ++ s) acc = acc ++ l.foldl (fun r s => r ++ s) "" := by
  induction l generalizing acc with
  | nil => simp
  | cons x l ih =>
    rw [List.foldl_cons, List.foldl_cons, ih (acc ++ x), ih ("" ++ x)]
    simp only [String.append_assoc, String.empty_append]

theorem textOf_nil (render : KeyType → String) : textOf render [] = "" := rfl

theorem textOf_cons (render : KeyType → String) (key : KeyType) (keys : List KeyType) :
    textOf render (key :: keys) = render key ++ " " ++ textOf render keys := by
  rw [textOf, List.map_cons, String.join, List.foldl_cons, foldl_append_eq]
  simp [textOf, String.join]

theorem textOf_append (render : KeyType → String) (xs ys : List KeyType) :
    textOf render (xs ++ ys) = textOf render xs ++ textOf render ys := by
  induction xs with
  | nil => simp [textOf_nil]
  | cons x xs ih =>
    rw [List.cons_append, textOf_cons, textOf_cons, ih]
    simp only [String.append_assoc]

theorem writeKeys_eq_textOf (render : KeyType → String) (ss : String) (keys : List KeyType) :
    writeKeys render ss keys = ss ++ textOf render keys := by
  induction keys generalizing ss with
  | nil => simp [writeKeys, textOf_nil]
  | cons x xs ih =>
    rw [writeKeys, ih, textOf_cons]
    simp only [String.append_assoc]

theorem NodePtr.getPostOrderTraversal_eq (render : KeyType → String) (t : NodePtr KeyType)
    (ss : String) : t.getPostOrderTraversal render ss = writeKeys render ss t.postOrderKeys := by
  induction t generalizing ss with
  | null => rfl
  | node key left right ihl ihr =>
    simp only [NodePtr.getPostOrderTraversal, NodePtr.postOrderKeys, writeKeys_append, writeKeys,
      ihl, ihr]

theorem textOf_ends_with_space (render : KeyType → String) {keys : List KeyType}
    (h : keys ≠ []) : ∃ s : String, textOf render keys = s ++ " " := by
  obtain ⟨init, last, rfl⟩ : ∃ init last, keys = init ++ [last] :=
    ⟨keys.dropLast, keys.getLast h, (List.dropLast_append_getLast h).symm⟩
  refine ⟨textOf render init ++ render last, ?_⟩
  rw [textOf_append, textOf_cons, textOf_nil]
  simp only [String.append_assoc, String.append_empty]


/-! ## The level-order loop -/

theorem pushIfPresent_eq (nodes : List (NodePtr KeyType)) (child : NodePtr KeyType) :
    pushIfPresent nodes child = nodes ++ pushIfPresent [] child := by
  cases child with
  | null => simp [pushIfPresent]
  | node key left right => simp [pushIfPresent]

theorem pushIfPresent_push (nodes : List (NodePtr KeyType)) (key : KeyType)
    (left right : NodePtr KeyType) :
    pushIfPresent (pushIfPresent nodes left) right =
      nodes ++ (NodePtr.node key left right).children := by
  rw [NodePtr.children, pushIfPresent_eq (pushIfPresent nodes left), pushIfPresent_eq nodes,
    pushIfPresent_eq (pushIfPresent [] left) right, List.append_assoc]

theorem forestLevelKeys_cons (t : NodePtr KeyType) (forest : List (NodePtr KeyType)) (d : Nat) :
    forestLevelKeys (t :: forest) d = t.levelKeys d ++ forestLevelKeys forest d := by
  simp [forestLevelKeys]

theorem forestLevelKeys_append (xs ys : List (NodePtr KeyType)) (d : Nat) :
    forestLevelKeys (xs ++ ys) d = forestLevelKeys xs d ++ forestLevelKeys ys d := by
  simp [forestLevelKeys]

theorem levelOrderLoop_append (render : KeyType → String) (q r : List (NodePtr KeyType))
    (ss : String) :
    levelOrderLoop render (q ++ r) ss =
      levelOrderLoop render (r ++ nextFrontier q) (writeKeys render ss (forestLevelKeys q 0)) := by
  induction q generalizing r ss with
  | nil => simp [nextFrontier, forestLevelKeys, writeKeys]
  | cons t q ih =>
    cases t with
    | null =>
      rw [List.cons_append, levelOrderLoop, ih, forestLevelKeys_cons]
      simp [nextFrontier, NodePtr.children, NodePtr.levelKeys]
    | node key left right =>
      rw [List.cons_append, levelOrderLoop, pushIfPresent_push _ key, List.append_assoc, ih,
        forestLevelKeys_cons]
      simp only [nextFrontier, NodePtr.levelKeys, List.append_assoc, List.singleton_append,
        writeKeys]
      rfl

theorem children_levelKeys (t : NodePtr KeyType) (d : Nat) :
    forestLevelKeys t.children d = t.levelKeys (d + 1) := by
  cases t with
  | null => rfl
  | node key left right =>
    cases left <;> cases right <;>
      simp [NodePtr.children, pushIfPresent, forestLevelKeys, NodePtr.levelKeys]

theorem nextFrontier_levelKeys (forest : List (NodePtr KeyType)) (d : Nat) :
    forestLevelKeys (nextFrontier forest) d = forestLevelKeys forest (d + 1) := by
  induction forest with
  | nil => rfl
  | cons t forest ih =>
    rw [nextFrontier, forestLevelKeys_append, children_levelKeys, ih, forestLevelKeys_cons]

theorem mem_pushIfPresent {nodes : List (NodePtr KeyType)} {child c : NodePtr KeyType} :
    c ∈ pushIfPresent nodes child ↔ c ∈ nodes ∨ (c = child ∧ child ≠ .null) := by
  cases child <;> simp [pushIfPresent]

theorem children_height {t c : NodePtr KeyType} (h : c ∈ t.children) :
    c ≠ .null ∧ c.getHeight + 1 ≤ t.getHeight := by
  cases t with
  | null => simp [NodePtr.children] at h
  | node key left right =>
    rw [NodePtr.children, mem_pushIfPresent, mem_pushIfPresent] at h
    rcases h with (h | ⟨rfl, hn⟩) | ⟨rfl, hn⟩
    · exact absurd h (List.not_mem_nil _)
    · refine ⟨hn, ?_⟩
      simp only [NodePtr.getHeight]
      omega
    · refine ⟨hn, ?_⟩
      simp only [NodePtr.getHeight]
      omega

theorem nextFrontier_height {forest : List (NodePtr KeyType)} {c : NodePtr KeyType}
    (h : c ∈ nextFrontier forest) :
    c ≠ .null ∧ ∃ t ∈ forest, c.getHeight + 1 ≤ t.getHeight := by
  induction forest with
  | nil => simp [nextFrontier] at h
  | cons t forest ih =>
    rw [nextFrontier, List.mem_append] at h
    rcases h with h | h
    · exact ⟨(children_height h).1, t, List.mem_cons_self _ _, (children_height h).2⟩
    · obtain ⟨h1, s, hs, h2⟩ := ih h
      exact ⟨h1, s, List.mem_cons_of_mem _ hs, h2⟩

theorem levelOrderLoop_of_height_zero (render : KeyType → String)
    {forest : List (NodePtr KeyType)} (h : ∀ t ∈ forest, t.getHeight ≤ 0) (ss : String) :
    levelOrderLoop render forest ss = ss := by
  induction forest with
  | nil => rw [levelOrderLoop]
  | cons t forest ih =>
    cases t with
    | null =>
      rw [levelOrderLoop]
      exact ih (fun t ht => h t (List.mem_cons_of_mem _ ht))
    | node key left right =>
      have := h _ (List.mem_cons_self _ _)
      simp only [NodePtr.getHeight] at this
      omega

theorem range_succ_flatMap {β : Type u} (f : Nat → List β) (n : Nat) :
    (List.range (n + 1)).flatMap f = f 0 ++ (List.range n).flatMap (fun d => f (d + 1)) := by
  rw [List.range_succ_eq_map, List.flatMap_cons, List.flatMap_map]

theorem levelOrderLoop_eq (render : KeyType → String) (H : Nat)
    {forest : List (NodePtr KeyType)} (h : ∀ t ∈ forest, t.getHeight ≤ H) (ss : String) :
    levelOrderLoop render forest ss =
      writeKeys render ss ((List.range H).flatMap (fun d => forestLevelKeys forest d)) := by
  induction H generalizing forest ss with
  | zero =>
    rw [levelOrderLoop_of_height_zero render h]
    rfl
  | succ H ih =>
    have hA := levelOrderLoop_append render forest [] ss
    rw [List.append_nil, List.nil_append] at hA
    rw [hA, @ih (nextFrontier forest), range_succ_flatMap, writeKeys_append]
    · simp only [nextFrontier_levelKeys]
    · intro c hc
      obtain ⟨_, t, ht, hle⟩ := nextFrontier_height hc
      have := h t ht
      omega

theorem NodePtr.levelOrderLoop_root (render : KeyType → String) (t : NodePtr KeyType)
    (ss : String) : levelOrderLoop render [t] ss = writeKeys render ss t.levelOrderKeys := by
  rw [@levelOrderLoop_eq _ render t.getHeight [t]
    (fun s hs => by rw [List.mem_singleton.mp hs])]
  simp [NodePtr.levelOrderKeys, forestLevelKeys]

theorem BST.getLevelOrderTraversal_eq (render : KeyType → String) (t : BST KeyType) :
    t.getLevelOrderTraversal render = textOf render t.root.levelOrderKeys := by
  obtain ⟨root⟩ := t
  cases root with
  | null => rfl
  | node key left right =>
    rw [BST.getLevelOrderTraversal]
    simp only [BST.empty, Bool.false_eq_true, if_false]
    rw [NodePtr.levelOrderLoop_root, writeKeys_eq_textOf, String.empty_append]

end Traversals

section Structure

/-! ## Height and root-to-leaf paths -/

theorem NodePtr.getHeight_eq_zero {t : NodePtr KeyType} (h : t.getHeight = 0) : t = .null := by
  cases t with
  | null => rfl
  | node key left right =>
    simp only [NodePtr.getHeight] at h
    omega

theorem NodePtr.isLeafAt_cons_left (key : KeyType) (left right : NodePtr KeyType)
    (path : List Dir) :
    (NodePtr.node key left right).IsLeafAt (.left :: path) ↔ left.IsLeafAt path :=
  Iff.rfl

theorem NodePtr.isLeafAt_cons_right (key : KeyType) (left right : NodePtr KeyType)
    (path : List Dir) :
    (NodePtr.node key left right).IsLeafAt (.right :: path) ↔ right.IsLeafAt path :=
  Iff.rfl

theorem NodePtr.exists_leaf_path {t : NodePtr KeyType} (h : t ≠ .null) :
    ∃ path : List Dir, t.IsLeafAt path ∧ path.length + 1 = t.getHeight := by
  induction t with
  | null => exact absurd rfl h
  | node key left right ihl ihr =>
    by_cases hle : right.getHeight ≤ left.getHeight
    · by_cases hl : left = .null
      · subst hl
        have hr : right = .null := NodePtr.getHeight_eq_zero (Nat.le_zero.mp hle)
        subst hr
        exact ⟨[], ⟨key, rfl⟩, rfl⟩
      · obtain ⟨path, hleaf, hlen⟩ := ihl hl
        refine ⟨.left :: path, (NodePtr.isLeafAt_cons_left key left right path).mpr hleaf, ?_⟩
        rw [List.length_cons, hlen, NodePtr.getHeight, max_eq_left hle]
        omega
    · have hlt := not_le.mp hle
      have hr : right ≠ .null := by
        intro hr
        subst hr
        exact absurd hlt (Nat.not_lt_zero _)
      obtain ⟨path, hleaf, hlen⟩ := ihr hr
      refine ⟨.right :: path, (NodePtr.isLeafAt_cons_right key left right path).mpr hleaf, ?_⟩
      rw [List.length_cons, hlen, NodePtr.getHeight, max_eq_right (le_of_lt hlt)]
      omega

theorem NodePtr.leaf_path_le {t : NodePtr KeyType} {path : List Dir} (h : t.IsLeafAt path) :
    path.length + 1 ≤ t.getHeight := by
  induction path generalizing t with
  | nil =>
    obtain ⟨k, hk⟩ := h
    simp only [NodePtr.subtreeAt] at hk
    subst hk
    exact Nat.le_refl _
  | cons d path ih =>
    cases t with
    | null =>
      obtain ⟨k, hk⟩ := h
      simp [NodePtr.subtreeAt] at hk
    | node key left right =>
      cases d with
      | left =>
        have := ih ((NodePtr.isLeafAt_cons_left key left right path).mp h)
        simp only [NodePtr.getHeight, List.length_cons]
        omega
      | right =>
        have := ih ((NodePtr.isLeafAt_cons_right key left right path).mp h)
        simp only [NodePtr.getHeight, List.length_cons]
        omega

/-! ## Width and levels -/

theorem NodePtr.getLevelWidth_eq_length (t : NodePtr KeyType) (d : Nat) :
    t.getLevelWidth d = (t.levelKeys d).length := by
  induction t generalizing d with
  | null => rfl
  | node key left right ihl ihr =>
    cases d with
    | zero => rfl
    | succ d => simp only [NodePtr.getLevelWidth, NodePtr.levelKeys, List.length_append, ihl, ihr]

theorem NodePtr.levelKeys_eq_nil {t : NodePtr KeyType} {d : Nat} (h : t.getHeight ≤ d) :
    t.levelKeys d = [] := by
  induction t generalizing d with
  | null => rfl
  | node key left right ihl ihr =>
    simp only [NodePtr.getHeight] at h
    cases d with
    | zero => omega
    | succ d =>
      simp only [NodePtr.levelKeys, List.append_eq_nil]
      exact ⟨ihl (by omega), ihr (by omega)⟩

/-- What a loop `m = max(f(x), m)` over a list computes: an upper bound of the
start value and of every `f x`, which is one of them. -/
theorem foldl_max_spec (f : Nat → Nat) (l : List Nat) (a : Nat) :
    a ≤ l.foldl (fun m x => max (f x) m) a ∧
      (∀ x ∈ l, f x ≤ l.foldl (fun m x => max (f x) m) a) ∧
      (l.foldl (fun m x => max (f x) m) a = a ∨
        ∃ x ∈ l, f x = l.foldl (fun m x => max (f x) m) a) := by
  induction l generalizing a with
  | nil => simp
  | cons y l ih =>
    obtain ⟨h1, h2, h3⟩ := ih (max (f y) a)
    simp only [List.foldl_cons, List.mem_cons]
    refine ⟨le_trans (le_max_right _ _) h1, ?_, ?_⟩
    · rintro x (rfl | hx)
      · exact le_trans (le_max_left _ _) h1
      · exact h2 x hx
    · rcases h3 with h3 | ⟨x, hx, h3⟩
      · rcases le_total (f y) a with hle | hle
        · left
          rw [h3, max_eq_right hle]
        · right
          exact ⟨y, Or.inl rfl, by rw [h3, max_eq_left hle]⟩
      · right
        exact ⟨x, Or.inr hx, h3⟩

theorem widthPass_step (frontier : List (NodePtr KeyType)) (maxWidth : Nat) :
    widthPass frontier maxWidth =
      widthPass (nextFrontier frontier) (max frontier.length maxWidth) := by
  cases frontier with
  | nil => simp [nextFrontier, widthPass]
  | cons t frontier => rw [widthPass]

theorem forestLevelKeys_zero_length {forest : List (NodePtr KeyType)}
    (h : ∀ t ∈ forest, t ≠ .null) : (forestLevelKeys forest 0).length = forest.length := by
  induction forest with
  | nil => rfl
  | cons t forest ih =>
    rw [forestLevelKeys_cons, List.length_append, List.length_cons,
      ih (fun s hs => h s (List.mem_cons_of_mem _ hs))]
    cases t with
    | null => exact absurd rfl (h _ (List.mem_cons_self _ _))
    | node key left right => simp [NodePtr.levelKeys]; omega

theorem widthPass_eq (H : Nat) {forest : List (NodePtr KeyType)}
    (hn : ∀ t ∈ forest, t ≠ .null) (hh : ∀ t ∈ forest, t.getHeight ≤ H) (maxWidth : Nat) :
    widthPass forest maxWidth =
      (List.range H).foldl (fun m d => max (forestLevelKeys forest d).length m) maxWidth := by
  induction H generalizing forest maxWidth with
  | zero =>
    cases forest with
    | nil => simp [widthPass]
    | cons t forest =>
      have h0 := hh t (List.mem_cons_self _ _)
      exact absurd (NodePtr.getHeight_eq_zero (Nat.le_zero.mp h0)) (hn t (List.mem_cons_self _ _))
  | succ H ih =>
    rw [widthPass_step, @ih (nextFrontier forest), List.range_succ_eq_map,
      List.foldl_cons, List.foldl_map, forestLevelKeys_zero_length hn]
    · simp only [nextFrontier_levelKeys, Nat.succ_eq_add_one]
    · exact fun c hc => (nextFrontier_height hc).1
    · intro c hc
      obtain ⟨_, t, ht, hle⟩ := nextFrontier_height hc
      have := hh t ht
      omega

theorem BST.breadthFirstWidth_eq (t : BST KeyType) : t.breadthFirstWidth = t.getWidth := by
  rw [BST.breadthFirstWidth, BST.getWidth,
    @widthPass_eq _ t.root.getHeight (pushIfPresent [] t.root)]
  · congr 1
    funext m d
    rw [NodePtr.getLevelWidth_eq_length]
    cases t.root <;> simp [pushIfPresent, forestLevelKeys, NodePtr.levelKeys]
  · intro c hc
    exact ((mem_pushIfPresent.mp hc).resolve_left (List.not_mem_nil _)).1 ▸
      ((mem_pushIfPresent.mp hc).resolve_left (List.not_mem_nil _)).2
  · intro c hc
    rw [((mem_pushIfPresent.mp hc).resolve_left (List.not_mem_nil _)).1]

/-! ## Copies -/

theorem NodePtr.copy_eq (t : NodePtr KeyType) : t.copy = t := by
  induction t with
  | null => rfl
  | node key left right ihl ihr => rw [NodePtr.copy, ihl, ihr]

end Structure

section Memory

/-! ## Reading the memory -/

theorem Heap.read_write (h : Heap KeyType) (a : Nat) (c : Cell KeyType) (b : Nat) :
    (h.write a c).read b = if b = a then some c else h.read b :=
  rfl

theorem Heap.read_free (h : Heap KeyType) (a b : Nat) :
    (h.free a).read b = if b = a then none else h.read b := by
  induction h with
  | nil => simp [Heap.free, Heap.read]
  | cons e h ih =>
    obtain ⟨x, c⟩ := e
    by_cases hx : x = a
    · subst hx
      simp only [Heap.free, if_true, ih, Heap.read]
      by_cases hb : b = x
      · simp [hb]
      · simp [hb]
    · simp only [Heap.free, if_neg hx, Heap.read, ih]
      by_cases hb : b = a
      · subst hb
        simp [Ne.symm hx]
      · simp [hb]

theorem Mem.read_lt_bump {h : Heap KeyType} {a : Nat} {c : Cell KeyType}
    (hr : h.read a = some c) : a < Mem.bump h := by
  induction h with
  | nil => simp [Heap.read] at hr
  | cons e h ih =>
    obtain ⟨x, d⟩ := e
    simp only [Heap.read] at hr
    simp only [Mem.bump]
    by_cases hx : a = x
    · subst hx
      exact lt_of_lt_of_le (Nat.lt_succ_self _) (le_max_left _ _)
    · rw [if_neg hx] at hr
      exact lt_of_lt_of_le (ih hr) (le_max_right _ _)

theorem Mem.fresh_bump : Mem.Fresh (Mem.bump : Heap KeyType → Nat) := by
  intro h
  cases hr : h.read (Mem.bump h) with
  | none => rfl
  | some c => exact absurd (Mem.read_lt_bump hr) (lt_irrefl _)

/-! ## Node graphs that represent a tree -/

theorem Mem.owns_none {h : Heap KeyType} {t : NodePtr KeyType} {cells : List Nat}
    (ho : Mem.Owns h none t cells) : t = .null ∧ cells = [] := by
  cases t with
  | null => exact ⟨rfl, ho⟩
  | node key left right => exact absurd ho id

theorem Mem.owns_some {h : Heap KeyType} {a : Nat} {t : NodePtr KeyType} {cells : List Nat}
    (ho : Mem.Owns h (some a) t cells) :
    ∃ key left right pl pr cl cr, t = .node key left right ∧
      h.read a = some ⟨key, pl, pr⟩ ∧ Mem.Owns h pl left cl ∧ Mem.Owns h pr right cr ∧
      cells = a :: (cl ++ cr) := by
  cases t with
  | null => exact absurd ho id
  | node key left right =>
    obtain ⟨pl, pr, cl, cr, h1, h2, h3, h4⟩ := ho
    exact ⟨key, left, right, pl, pr, cl, cr, rfl, h1, h2, h3, h4⟩

theorem Mem.owns_live {h : Heap KeyType} {p : Option Nat} {t : NodePtr KeyType}
    {cells : List Nat} (ho : Mem.Owns h p t cells) : ∀ b ∈ cells, h.read b ≠ none := by
  induction t generalizing p cells with
  | null =>
    cases p with
    | none =>
      have : cells = [] := ho
      subst this
      exact fun b hb => absurd hb (List.not_mem_nil b)
    | some a => exact absurd ho id
  | node key left right ihl ihr =>
    cases p with
    | none => exact absurd ho id
    | some a =>
      obtain ⟨pl, pr, cl, cr, h1, h2, h3, h4⟩ := ho
      subst h4
      intro b hb
      rcases List.mem_cons.mp hb with rfl | hb
      · rw [h1]
        exact Option.some_ne_none _
      · rcases List.mem_append.mp hb with hb | hb
        · exact ihl h2 b hb
        · exact ihr h3 b hb

theorem Mem.owns_frame {h h1 : Heap KeyType} {p : Option Nat} {t : NodePtr KeyType}
    {cells : List Nat} (ho : Mem.Owns h p t cells)
    (hf : ∀ b ∈ cells, h1.read b = h.read b) : Mem.Owns h1 p t cells := by
  induction t generalizing p cells with
  | null =>
    cases p with
    | none => exact ho
    | some a => exact absurd ho id
  | node key left right ihl ihr =>
    cases p with
    | none => exact absurd ho id
    | some a =>
      obtain ⟨pl, pr, cl, cr, h1', h2, h3, h4⟩ := ho
      subst h4
      refine ⟨pl, pr, cl, cr, ?_, ihl h2 ?_, ihr h3 ?_, rfl⟩
      · rw [hf a (List.mem_cons_self _ _), h1']
      · exact fun b hb => hf b (List.mem_cons_of_mem _ (List.mem_append_left _ hb))
      · exact fun b hb => hf b (List.mem_cons_of_mem _ (List.mem_append_right _ hb))

/-! ## `copy` in memory -/

theorem Mem.copy_spec {alloc : Heap KeyType → Nat} (hfresh : Mem.Fresh alloc)
    {t : NodePtr KeyType} {h : Heap KeyType} {p : Option Nat} {cells : List Nat} {fuel : Nat}
    (ho : Mem.Owns h p t cells) (hfuel : t.getHeight < fuel) :
    ∃ h1 p1 cells1, Mem.copy alloc fuel h p = some (h1, p1) ∧ Mem.Tree h1 p1 t cells1 ∧
      (∀ b ∈ cells1, h.read b = none) ∧ ∀ b, h.read b ≠ none → h1.read b = h.read b := by
  induction t generalizing h p cells fuel with
  | null =>
    cases p with
    | some a => exact absurd ho id
    | none =>
      cases fuel with
      | zero => exact absurd hfuel (Nat.not_lt_zero _)
      | succ fuel =>
        exact ⟨h, none, [], rfl, ⟨rfl, List.nodup_nil⟩,
          fun b hb => absurd hb (List.not_mem_nil b), fun _ _ => rfl⟩
  | node key left right ihl ihr =>
    cases p with
    | none => exact absurd ho id
    | some a =>
      obtain ⟨pl, pr, cl, cr, hread, hol, hor, hcells⟩ := ho
      cases fuel with
      | zero => exact absurd hfuel (Nat.not_lt_zero _)
      | succ fuel =>
        simp only [NodePtr.getHeight] at hfuel
        obtain ⟨h1, p1, c1, e1, ⟨ho1, hn1⟩, hfree1, hext1⟩ :=
          @ihl h pl cl fuel hol (by omega)
        have hor1 : Mem.Owns h1 pr right cr :=
          Mem.owns_frame hor (fun b hb => hext1 b (Mem.owns_live hor b hb))
        obtain ⟨h2, p2, c2, e2, ⟨ho2, hn2⟩, hfree2, hext2⟩ :=
          @ihr h1 pr cr fuel hor1 (by omega)
        have hnew : h2.read (alloc h2) = none := hfresh h2
        have hlive1 : ∀ b ∈ c1, h1.read b ≠ none := Mem.owns_live ho1
        have hlive2 : ∀ b ∈ c2, h2.read b ≠ none := Mem.owns_live ho2
        have hlive12 : ∀ b ∈ c1, h2.read b ≠ none := fun b hb => by
          rw [hext2 b (hlive1 b hb)]
          exact hlive1 b hb
        have hne1 : ∀ b ∈ c1, b ≠ alloc h2 := fun b hb hEq => hlive12 b hb (hEq ▸ hnew)
        have hne2 : ∀ b ∈ c2, b ≠ alloc h2 := fun b hb hEq => hlive2 b hb (hEq ▸ hnew)
        refine ⟨h2.write (alloc h2) ⟨key, p1, p2⟩, some (alloc h2), alloc h2 :: (c1 ++ c2),
          ?_, ⟨⟨p1, p2, c1, c2, ?_, ?_, ?_, rfl⟩, ?_⟩, ?_, ?_⟩
        · simp only [Mem.copy, hread, e1, e2]
        · rw [Heap.read_write, if_pos rfl]
        · refine Mem.owns_frame ho1 (fun b hb => ?_)
          rw [Heap.read_write, if_neg (hne1 b hb), hext2 b (hlive1 b hb)]
        · refine Mem.owns_frame ho2 (fun b hb => ?_)
          rw [Heap.read_write, if_neg (hne2 b hb)]
        · rw [List.nodup_cons, List.mem_append, List.nodup_append]
          refine ⟨?_, hn1, hn2, ?_⟩
          · rintro (hb | hb)
            · exact hne1 _ hb rfl
            · exact hne2 _ hb rfl
          · intro b hb1 hb2
            exact hlive1 b hb1 (hfree2 b hb2)
        · intro b hb
          rcases List.mem_cons.mp hb with rfl | hb
          · by_contra hlive
            have := hext2 _ (by rw [hext1 _ hlive]; exact hlive)
            rw [hnew, hext1 _ hlive] at this
            exact hlive this.symm
          · rcases List.mem_append.mp hb with hb | hb
            · exact hfree1 b hb
            · by_contra hlive
              have := hfree2 b hb
              rw [hext1 b hlive] at this
              exact hlive this
        · intro b hlive
          have hb1 : h1.read b = h.read b := hext1 b hlive
          have hb2 : h2.read b = h1.read b := hext2 b (by rw [hb1]; exact hlive)
          have hne : b ≠ alloc h2 := fun hEq => by
            have hl2 : h2.read b ≠ none := by
              rw [hb2, hb1]
              exact hlive
            exact hl2 (hEq ▸ hnew)
          rw [Heap.read_write, if_neg hne, hb2, hb1]

/-! ## `add` in memory -/

theorem Mem.add_spec [LinearOrder KeyType] {alloc : Heap KeyType → Nat}
    (hfresh : Mem.Fresh alloc) {t : NodePtr KeyType} {h : Heap KeyType} {p : Option Nat}
    {cells : List Nat} {fuel : Nat} (k : KeyType) (ht : Mem.Tree h p t cells)
    (hfuel : t.getHeight < fuel) :
    ∃ h1 a1 cells1, Mem.add alloc fuel h p k = some (h1, a1) ∧
      Mem.Tree h1 (some a1) (t.add k) cells1 ∧
      (∀ b ∈ cells1, b ∈ cells ∨ h.read b = none) ∧
      ∀ b, b ∉ cells → h.read b ≠ none → h1.read b = h.read b := by
  induction t generalizing h p cells fuel with
  | null =>
    obtain ⟨ho, _⟩ := ht
    cases p with
    | some a => exact absurd ho id
    | none =>
      cases fuel with
      | zero => exact absurd hfuel (Nat.not_lt_zero _)
      | succ fuel =>
        refine ⟨h.write (alloc h) ⟨k, none, none⟩, alloc h, [alloc h], rfl,
          ⟨⟨none, none, [], [], ?_, rfl, rfl, rfl⟩, List.nodup_singleton _⟩, ?_, ?_⟩
        · rw [Heap.read_write, if_pos rfl]
        · intro b hb
          rw [List.mem_singleton.mp hb]
          exact Or.inr (hfresh h)
        · intro b _ hlive
          have hne : b ≠ alloc h := fun hEq => hlive (hEq ▸ hfresh h)
          rw [Heap.read_write, if_neg hne]
  | node key left right ihl ihr =>
    obtain ⟨ho, hnd⟩ := ht
    cases p with
    | none => exact absurd ho id
    | some a =>
      obtain ⟨pl, pr, cl, cr, hread, hol, hor, hcells⟩ := ho
      subst hcells
      obtain ⟨hacl, hndlr⟩ := List.nodup_cons.mp hnd
      obtain ⟨hndl, hndr, hdisj⟩ := List.nodup_append.mp hndlr
      have hal : a ∉ cl := fun hm => hacl (List.mem_append_left _ hm)
      have har : a ∉ cr := fun hm => hacl (List.mem_append_right _ hm)
      have hlive : h.read a ≠ none := by
        rw [hread]
        exact Option.some_ne_none _
      cases fuel with
      | zero => exact absurd hfuel (Nat.not_lt_zero _)
      | succ fuel =>
        simp only [NodePtr.getHeight] at hfuel
        by_cases h1 : k < key
        · obtain ⟨m, a1, c1, e1, ⟨ho1, hn1⟩, hsub, hframe⟩ :=
            @ihl h pl cl fuel ⟨hol, hndl⟩ (by omega)
          have hreadm : m.read a = some ⟨key, pl, pr⟩ := by
            rw [hframe a hal hlive, hread]
          have hne1 : ∀ b ∈ c1, b ≠ a := fun b hb hEq => by
            subst hEq
            rcases hsub b hb with hm | hfree
            · exact hal hm
            · exact hlive hfree
          have hc1r : ∀ b ∈ c1, b ∉ cr := fun b hb hbr => by
            rcases hsub b hb with hm | hfree
            · exact hdisj hm hbr
            · exact Mem.owns_live hor b hbr hfree
          refine ⟨m.write a ⟨key, some a1, pr⟩, a, a :: (c1 ++ cr), ?_,
            ⟨?_, ?_⟩, ?_, ?_⟩
          · simp only [Mem.add, hread, if_pos h1, e1, hreadm]
          · rw [NodePtr.add, if_pos h1]
            refine ⟨some a1, pr, c1, cr, ?_, ?_, ?_, rfl⟩
            · rw [Heap.read_write, if_pos rfl]
            · refine Mem.owns_frame ho1 (fun b hb => ?_)
              rw [Heap.read_write, if_neg (hne1 b hb)]
            · refine Mem.owns_frame hor (fun b hb => ?_)
              have hba : b ≠ a := fun hEq => har (hEq ▸ hb)
              rw [Heap.read_write, if_neg hba]
              exact hframe b (fun hbl => hdisj hbl hb) (Mem.owns_live hor b hb)
          · rw [List.nodup_cons, List.mem_append, List.nodup_append]
            refine ⟨?_, hn1, hndr, fun _ hb1 hb2 => hc1r _ hb1 hb2⟩
            rintro (hm | hm)
            · exact hne1 a hm rfl
            · exact har hm
          · intro b hb
            rcases List.mem_cons.mp hb with rfl | hb
            · exact Or.inl (List.mem_cons_self _ _)
            · rcases List.mem_append.mp hb with hb | hb
              · rcases hsub b hb with hm | hfree
                · exact Or.inl (List.mem_cons_of_mem _ (List.mem_append_left _ hm))
                · exact Or.inr hfree
              · exact Or.inl (List.mem_cons_of_mem _ (List.mem_append_right _ hb))
          · intro b hb hbl
            have hba : b ≠ a := fun hEq => hb (hEq ▸ List.mem_cons_self _ _)
            have hbcl : b ∉ cl :=
              fun hm => hb (List.mem_cons_of_mem _ (List.mem_append_left _ hm))
            rw [Heap.read_write, if_neg hba]
            exact hframe b hbcl hbl
        · by_cases h2 : k > key
          · obtain ⟨m, a1, c1, e1, ⟨ho1, hn1⟩, hsub, hframe⟩ :=
              @ihr h pr cr fuel ⟨hor, hndr⟩ (by omega)
            have hreadm : m.read a = some ⟨key, pl, pr⟩ := by
              rw [hframe a har hlive, hread]
            have hne1 : ∀ b ∈ c1, b ≠ a := fun b hb hEq => by
              subst hEq
              rcases hsub b hb with hm | hfree
              · exact har hm
              · exact hlive hfree
            have hc1l : ∀ b ∈ cl, b ∉ c1 := fun b hbl hb => by
              rcases hsub b hb with hm | hfree
              · exact hdisj hbl hm
              · exact Mem.owns_live hol b hbl hfree
            refine ⟨m.write a ⟨key, pl, some a1⟩, a, a :: (cl ++ c1), ?_,
              ⟨?_, ?_⟩, ?_, ?_⟩
            · simp only [Mem.add, hread, if_neg h1, if_pos h2, e1, hreadm]
            · rw [NodePtr.add, if_neg h1, if_pos h2]
              refine ⟨pl, some a1, cl, c1, ?_, ?_, ?_, rfl⟩
              · rw [Heap.read_write, if_pos rfl]
              · refine Mem.owns_frame hol (fun b hb => ?_)
                have hba : b ≠ a := fun hEq => hal (hEq ▸ hb)
                rw [Heap.read_write, if_neg hba]
                exact hframe b (fun hbr => hdisj hb hbr) (Mem.owns_live hol b hb)
              · refine Mem.owns_frame ho1 (fun b hb => ?_)
                rw [Heap.read_write, if_neg (hne1 b hb)]
            · rw [List.nodup_cons, List.mem_append, List.nodup_append]
              refine ⟨?_, hndl, hn1, fun _ hb1 hb2 => hc1l _ hb1 hb2⟩
              rintro (hm | hm)
              · exact hal hm
              · exact hne1 a hm rfl
            · intro b hb
              rcases List.mem_cons.mp hb with rfl | hb
              · exact Or.inl (List.mem_cons_self _ _)
              · rcases List.mem_append.mp hb with hb | hb
                · exact Or.inl (List.mem_cons_of_mem _ (List.mem_append_left _ hb))
                · rcases hsub b hb with hm | hfree
                  · exact Or.inl (List.mem_cons_of_mem _ (List.mem_append_right _ hm))
                  · exact Or.inr hfree
            · intro b hb hbl
              have hba : b ≠ a := fun hEq => hb (hEq ▸ List.mem_cons_self _ _)
              have hbcr : b ∉ cr :=
                fun hm => hb (List.mem_cons_of_mem _ (List.mem_append_right _ hm))
              rw [Heap.read_write, if_neg hba]
              exact hframe b hbcr hbl
          · refine ⟨h, a, a :: (cl ++ cr), ?_, ⟨?_, hnd⟩, fun b hb => Or.inl hb,
              fun _ _ _ => rfl⟩
            · simp only [Mem.add, hread, if_neg h1, if_neg h2]
            · rw [NodePtr.add, if_neg h1, if_neg h2]
              exact ⟨pl, pr, cl, cr, hread, hol, hor, rfl⟩

/-! ## `findMax` and `remove` in memory -/

theorem Mem.tree_node {m : Heap KeyType} {a : Nat} (key : KeyType) {pl pr : Option Nat}
    {l r : NodePtr KeyType} {cl cr : List Nat} (hl : Mem.Owns m pl l cl)
    (hr : Mem.Owns m pr r cr) (hnl : cl.Nodup) (hnr : cr.Nodup) (hal : a ∉ cl) (har : a ∉ cr)
    (hd : ∀ b ∈ cl, b ∉ cr) :
    Mem.Tree (m.write a ⟨key, pl, pr⟩) (some a) (.node key l r) (a :: (cl ++ cr)) := by
  refine ⟨⟨pl, pr, cl, cr, ?_, ?_, ?_, rfl⟩, ?_⟩
  · rw [Heap.read_write, if_pos rfl]
  · refine Mem.owns_frame hl (fun b hb => ?_)
    have hne : b ≠ a := fun hEq => hal (hEq ▸ hb)
    rw [Heap.read_write, if_neg hne]
  · refine Mem.owns_frame hr (fun b hb => ?_)
    have hne : b ≠ a := fun hEq => har (hEq ▸ hb)
    rw [Heap.read_write, if_neg hne]
  · rw [List.nodup_cons, List.mem_append, List.nodup_append]
    refine ⟨?_, hnl, hnr, fun b hb1 hb2 => hd b hb1 hb2⟩
    rintro (hm | hm)
    · exact hal hm
    · exact har hm

theorem Mem.findMax_spec {h : Heap KeyType} {a : Nat} {key : KeyType}
    {left right : NodePtr KeyType} {cells : List Nat} {fuel : Nat}
    (ho : Mem.Owns h (some a) (.node key left right) cells)
    (hfuel : (NodePtr.node key left right).getHeight ≤ fuel) :
    Mem.findMax fuel h a = some (Node.findMax key right) := by
  induction right generalizing a key left cells fuel with
  | null =>
    obtain ⟨pl, pr, cl, cr, hread, _, hor, _⟩ := ho
    cases fuel with
    | zero =>
      simp only [NodePtr.getHeight] at hfuel
      omega
    | succ fuel =>
      cases pr with
      | some ra => exact absurd hor id
      | none => simp only [Mem.findMax, hread, Node.findMax]
  | node rkey rleft rright _ ihr =>
    obtain ⟨pl, pr, cl, cr, hread, _, hor, _⟩ := ho
    cases fuel with
    | zero =>
      simp only [NodePtr.getHeight] at hfuel
      omega
    | succ fuel =>
      cases pr with
      | none => exact absurd hor id
      | some ra =>
        have hf : (NodePtr.node rkey rleft rright).getHeight ≤ fuel := by
          simp only [NodePtr.getHeight] at hfuel ⊢
          omega
        simp only [Mem.findMax, hread, Node.findMax]
        exact ihr hor hf

theorem Mem.remove_spec [LinearOrder KeyType] {t : NodePtr KeyType} {h : Heap KeyType}
    {p : Option Nat} {cells : List Nat} {fuel : Nat} (k : KeyType)
    (ht : Mem.Tree h p t cells) (hfuel : t.getHeight < fuel) :
    ∃ h1 p1 cells1, Mem.remove fuel h p k = some (h1, p1) ∧
      Mem.Tree h1 p1 (t.remove k) cells1 ∧
      (∀ b ∈ cells1, b ∈ cells) ∧ ∀ b, b ∉ cells → h1.read b = h.read b := by
  induction t generalizing h p cells fuel k with
  | null =>
    obtain ⟨ho, hnd⟩ := ht
    cases p with
    | some a => exact absurd ho id
    | none =>
      cases fuel with
      | zero => exact absurd hfuel (Nat.not_lt_zero _)
      | succ fuel => exact ⟨h, none, cells, rfl, ⟨ho, hnd⟩, fun _ hb => hb, fun _ _ => rfl⟩
  | node key left right ihl ihr =>
    obtain ⟨ho, hnd⟩ := ht
    cases p with
    | none => exact absurd ho id
    | some a =>
      obtain ⟨pl, pr, cl, cr, hread, hol, hor, hcells⟩ := ho
      subst hcells
      obtain ⟨hacl, hndlr⟩ := List.nodup_cons.mp hnd
      obtain ⟨hndl, hndr, hdisj⟩ := List.nodup_append.mp hndlr
      have hal : a ∉ cl := fun hm => hacl (List.mem_append_left _ hm)
      have har : a ∉ cr := fun hm => hacl (List.mem_append_right _ hm)
      cases fuel with
      | zero => exact absurd hfuel (Nat.not_lt_zero _)
      | succ fuel =>
        simp only [NodePtr.getHeight] at hfuel
        rw [NodePtr.remove_node]
        by_cases h1 : k < key
        · obtain ⟨m, p1, c1, e1, ⟨ho1, hn1⟩, hsub, hframe⟩ :=
            @ihl h pl cl fuel k ⟨hol, hndl⟩ (by omega)
          have hreadm : m.read a = some ⟨key, pl, pr⟩ := by
            rw [hframe a hal, hread]
          have hor1 : Mem.Owns m pr right cr :=
            Mem.owns_frame hor (fun b hb => hframe b (fun hbl => hdisj hbl hb))
          refine ⟨m.write a ⟨key, p1, pr⟩, some a, a :: (c1 ++ cr), ?_, ?_, ?_, ?_⟩
          · simp only [Mem.remove, hread, if_pos h1, e1, hreadm]
          · rw [if_pos h1]
            exact Mem.tree_node key ho1 hor1 hn1 hndr (fun hm => hal (hsub a hm)) har
              (fun b hb hbr => hdisj (hsub b hb) hbr)
          · intro b hb
            rcases List.mem_cons.mp hb with rfl | hb
            · exact List.mem_cons_self _ _
            · rcases List.mem_append.mp hb with hb | hb
              · exact List.mem_cons_of_mem _ (List.mem_append_left _ (hsub b hb))
              · exact List.mem_cons_of_mem _ (List.mem_append_right _ hb)
          · intro b hb
            have hba : b ≠ a := fun hEq => hb (hEq ▸ List.mem_cons_self _ _)
            rw [Heap.read_write, if_neg hba]
            exact hframe b (fun hm => hb (List.mem_cons_of_mem _ (List.mem_append_left _ hm)))
        · by_cases h2 : k > key
          · obtain ⟨m, p1, c1, e1, ⟨ho1, hn1⟩, hsub, hframe⟩ :=
              @ihr h pr cr fuel k ⟨hor, hndr⟩ (by omega)
            have hreadm : m.read a = some ⟨key, pl, pr⟩ := by
              rw [hframe a har, hread]
            have hol1 : Mem.Owns m pl left cl :=
              Mem.owns_frame hol (fun b hb => hframe b (fun hbr => hdisj hb hbr))
            refine ⟨m.write a ⟨key, pl, p1⟩, some a, a :: (cl ++ c1), ?_, ?_, ?_, ?_⟩
            · simp only [Mem.remove, hread, if_neg h1, if_pos h2, e1, hreadm]
            · rw [if_neg h1, if_pos h2]
              exact Mem.tree_node key hol1 ho1 hndl hn1 hal (fun hm => har (hsub a hm))
                (fun b hb hbr => hdisj hb (hsub b hbr))
            · intro b hb
              rcases List.mem_cons.mp hb with rfl | hb
              · exact List.mem_cons_self _ _
              · rcases List.mem_append.mp hb with hb | hb
                · exact List.mem_cons_of_mem _ (List.mem_append_left _ hb)
                · exact List.mem_cons_of_mem _ (List.mem_append_right _ (hsub b hb))
            · intro b hb
              have hba : b ≠ a := fun hEq => hb (hEq ▸ List.mem_cons_self _ _)
              rw [Heap.read_write, if_neg hba]
              exact hframe b
                (fun hm => hb (List.mem_cons_of_mem _ (List.mem_append_right _ hm)))
          · rw [if_neg h1, if_neg h2]
            have hfree : ∀ b, b ≠ a → (h.free a).read b = h.read b := fun b hb => by
              rw [Heap.read_free, if_neg hb]
            cases left with
            | null =>
              cases pl with
              | some la => exact absurd hol id
              | none =>
                have hcl : cl = [] := hol
                subst hcl
                refine ⟨h.free a, pr, cr, ?_, ⟨?_, hndr⟩, ?_, ?_⟩
                · simp only [Mem.remove, hread, if_neg h1, if_neg h2]
                · exact Mem.owns_frame hor (fun b hb => hfree b (fun hEq => har (hEq ▸ hb)))
                · exact fun b hb => List.mem_cons_of_mem _ hb
                · exact fun b hb => hfree b (fun hEq => hb (hEq ▸ List.mem_cons_self _ _))
            | node lkey lleft lright =>
              cases pl with
              | none => exact absurd hol id
              | some la =>
                cases right with
                | null =>
                  cases pr with
                  | some ra => exact absurd hor id
                  | none =>
                    have hcr : cr = [] := hor
                    subst hcr
                    refine ⟨h.free a, some la, cl, ?_, ⟨?_, hndl⟩, ?_, ?_⟩
                    · simp only [Mem.remove, hread, if_neg h1, if_neg h2]
                    · exact Mem.owns_frame hol
                        (fun b hb => hfree b (fun hEq => hal (hEq ▸ hb)))
                    · exact fun b hb =>
                        List.mem_cons_of_mem _ (List.mem_append_left _ hb)
                    · exact fun b hb =>
                        hfree b (fun hEq => hb (hEq ▸ List.mem_cons_self _ _))
                | node rkey rleft rright =>
                  cases pr with
                  | none => exact absurd hor id
                  | some ra =>
                    have hmax : Mem.findMax fuel h la = some (Node.findMax lkey lright) :=
                      Mem.findMax_spec hol (by omega)
                    have hw : ∀ b, b ≠ a →
                        (h.write a ⟨Node.findMax lkey lright, some la, some ra⟩).read b =
                          h.read b := fun b hb => by
                      rw [Heap.read_write, if_neg hb]
                    have holw : Mem.Owns
                        (h.write a ⟨Node.findMax lkey lright, some la, some ra⟩) (some la)
                        (.node lkey lleft lright) cl :=
                      Mem.owns_frame hol (fun b hb => hw b (fun hEq => hal (hEq ▸ hb)))
                    obtain ⟨m, p1, c1, e1, ⟨ho1, hn1⟩, hsub, hframe⟩ :=
                      @ihl _ (some la) cl fuel (Node.findMax lkey lright) ⟨holw, hndl⟩
                        (by omega)
                    have hreadm : m.read a =
                        some ⟨Node.findMax lkey lright, some la, some ra⟩ := by
                      rw [hframe a hal, Heap.read_write, if_pos rfl]
                    have hor1 : Mem.Owns m (some ra) (.node rkey rleft rright) cr :=
                      Mem.owns_frame hor (fun b hb => by
                        rw [hframe b (fun hbl => hdisj hbl hb),
                          hw b (fun hEq => har (hEq ▸ hb))])
                    refine ⟨m.write a ⟨Node.findMax lkey lright, p1, some ra⟩, some a,
                      a :: (c1 ++ cr), ?_, ?_, ?_, ?_⟩
                    · simp only [Mem.remove, hread, if_neg h1, if_neg h2, hmax, e1, hreadm]
                    · exact Mem.tree_node _ ho1 hor1 hn1 hndr (fun hm => hal (hsub a hm)) har
                        (fun b hb hbr => hdisj (hsub b hb) hbr)
                    · intro b hb
                      rcases List.mem_cons.mp hb with rfl | hb
                      · exact List.mem_cons_self _ _
                      · rcases List.mem_append.mp hb with hb | hb
                        · exact List.mem_cons_of_mem _ (List.mem_append_left _ (hsub b hb))
                        · exact List.mem_cons_of_mem _ (List.mem_append_right _ hb)
                    · intro b hb
                      have hba : b ≠ a := fun hEq => hb (hEq ▸ List.mem_cons_self _ _)
                      rw [Heap.read_write, if_neg hba,
                        hframe b (fun hm =>
                          hb (List.mem_cons_of_mem _ (List.mem_append_left _ hm))),
                        hw b hba]

/-! ## Sequences of calls in memory, and independent node graphs -/

theorem NodePtr.getHeight_le_size (t : NodePtr KeyType) : t.getHeight ≤ t.size := by
  induction t with
  | null => exact Nat.le_refl _
  | node key left right ihl ihr =>
    simp only [NodePtr.getHeight, NodePtr.size]
    rcases le_total left.getHeight right.getHeight with hle | hle
    · rw [max_eq_right hle]
      omega
    · rw [max_eq_left hle]
      omega

theorem NodePtr.size_add_le [LinearOrder KeyType] (t : NodePtr KeyType) (k : KeyType) :
    (t.add k).size ≤ t.size + 1 := by
  rw [NodePtr.size_add]
  split_ifs <;> omega

theorem NodePtr.size_remove_le [LinearOrder KeyType] (t : NodePtr KeyType) (k : KeyType) :
    (t.remove k).size ≤ t.size := by
  induction t generalizing k with
  | null => exact Nat.le_refl _
  | node key left right ihl ihr =>
    rw [NodePtr.remove_node]
    split_ifs
    · have := ihl k
      simp only [NodePtr.size]
      omega
    · have := ihr k
      simp only [NodePtr.size]
      omega
    · cases left with
      | null =>
        show right.size ≤ _
        simp only [NodePtr.size]
        omega
      | node lkey lleft lright =>
        cases right with
        | null =>
          show (NodePtr.node lkey lleft lright).size ≤ _
          simp only [NodePtr.size]
          omega
        | node rkey rleft rright =>
          have := ihl (Node.findMax lkey lright)
          have e : (NodePtr.node key (.node lkey lleft lright) (.node rkey rleft rright)).size =
              (NodePtr.node lkey lleft lright).size + 1 + (NodePtr.node rkey rleft rright).size :=
            rfl
          show (NodePtr.node _ _ _).size ≤ _
          rw [e, NodePtr.size]
          omega

theorem Mem.owns_unique {h : Heap KeyType} {p : Option Nat} {t s : NodePtr KeyType}
    {c d : List Nat} (ht : Mem.Owns h p t c) (hs : Mem.Owns h p s d) : t = s := by
  induction t generalizing p s c d with
  | null =>
    cases p with
    | some a => exact absurd ht id
    | none => exact (Mem.owns_none hs).1.symm
  | node key left right ihl ihr =>
    cases p with
    | none => exact absurd ht id
    | some a =>
      obtain ⟨pl, pr, cl, cr, hread, hol, hor, _⟩ := ht
      obtain ⟨key2, left2, right2, pl2, pr2, cl2, cr2, rfl, hread2, hol2, hor2, _⟩ :=
        Mem.owns_some hs
      rw [hread] at hread2
      injection hread2 with hc
      injection hc with hk hl hr
      subst hk hl hr
      rw [ihl hol hol2, ihr hor hor2]

theorem Mem.run_spec [LinearOrder KeyType] {alloc : Heap KeyType → Nat}
    (hfresh : Mem.Fresh alloc) {t : NodePtr KeyType} {h : Heap KeyType} {p : Option Nat}
    {cells : List Nat} (calls : List (Call KeyType)) {fuel : Nat}
    (ht : Mem.Tree h p t cells) (hfuel : t.size + calls.length < fuel) :
    ∃ h1 p1 cells1, Mem.run alloc fuel h p calls = some (h1, p1) ∧
      Mem.Tree h1 p1 ((BST.mk t).run calls).root cells1 ∧
      (∀ b ∈ cells1, b ∈ cells ∨ h.read b = none) ∧
      ∀ b, b ∉ cells → h.read b ≠ none → h1.read b = h.read b := by
  induction calls generalizing t h p cells with
  | nil => exact ⟨h, p, cells, rfl, ht, fun b hb => Or.inl hb, fun _ _ _ => rfl⟩
  | cons c calls ih =>
    have hheight : t.getHeight < fuel :=
      lt_of_le_of_lt (NodePtr.getHeight_le_size t) (by omega)
    simp only [List.length_cons] at hfuel
    cases c with
    | add k =>
      obtain ⟨m, a1, c1, e1, ht1, hsub1, hframe1⟩ := Mem.add_spec hfresh k ht hheight
      have hsz := NodePtr.size_add_le t k
      obtain ⟨h2, p2, c2, e2, ht2, hsub2, hframe2⟩ := @ih (t.add k) m (some a1) c1 ht1 (by omega)
      refine ⟨h2, p2, c2, ?_, ht2, ?_, ?_⟩
      · simp only [Mem.run, Mem.call, e1, e2]
      · intro b hb
        rcases hsub2 b hb with hm | hfree
        · exact hsub1 b hm
        · by_cases hbc : b ∈ cells
          · exact Or.inl hbc
          · by_cases hbl : h.read b = none
            · exact Or.inr hbl
            · rw [hframe1 b hbc hbl] at hfree
              exact absurd hfree hbl
      · intro b hbc hbl
        have hb1 : m.read b = h.read b := hframe1 b hbc hbl
        have hbc1 : b ∉ c1 := fun hm => by
          rcases hsub1 b hm with hm | hfree
          · exact hbc hm
          · exact hbl hfree
        rw [hframe2 b hbc1 (by rw [hb1]; exact hbl), hb1]
    | remove k =>
      obtain ⟨m, p1, c1, e1, ht1, hsub1, hframe1⟩ := Mem.remove_spec k ht hheight
      have hsz := NodePtr.size_remove_le t k
      obtain ⟨h2, p2, c2, e2, ht2, hsub2, hframe2⟩ := @ih (t.remove k) m p1 c1 ht1 (by omega)
      refine ⟨h2, p2, c2, ?_, ht2, ?_, ?_⟩
      · simp only [Mem.run, Mem.call, e1, e2]
      · intro b hb
        rcases hsub2 b hb with hm | hfree
        · exact Or.inl (hsub1 b hm)
        · by_cases hbc : b ∈ cells
          · exact Or.inl hbc
          · rw [hframe1 b hbc] at hfree
            exact Or.inr hfree
      · intro b hbc hbl
        have hb1 : m.read b = h.read b := hframe1 b hbc
        have hbc1 : b ∉ c1 := fun hm => hbc (hsub1 b hm)
        rw [hframe2 b hbc1 (by rw [hb1]; exact hbl), hb1]

/-- Two objects whose node graphs share no cell: any sequence of calls on the
first leaves every cell of the second as it was, so the second still represents
its tree, and the first represents the result of the calls. -/
theorem Mem.run_independent [LinearOrder KeyType] {alloc : Heap KeyType → Nat}
    (hfresh : Mem.Fresh alloc) {t s : NodePtr KeyType} {h : Heap KeyType}
    {p q : Option Nat} {cells other : List Nat} (calls : List (Call KeyType)) {fuel : Nat}
    (ht : Mem.Tree h p t cells) (hs : Mem.Tree h q s other)
    (hdisj : ∀ b ∈ other, b ∉ cells) (hfuel : t.size + calls.length < fuel) :
    ∃ h1 p1 cells1, Mem.run alloc fuel h p calls = some (h1, p1) ∧
      Mem.Tree h1 p1 ((BST.mk t).run calls).root cells1 ∧
      Mem.Tree h1 q s other ∧ (∀ b ∈ other, b ∉ cells1) ∧
      ∀ b ∈ other, h1.read b = h.read b := by
  obtain ⟨h1, p1, c1, e1, ht1, hsub, hframe⟩ := Mem.run_spec hfresh calls ht hfuel
  have hlive : ∀ b ∈ other, h.read b ≠ none := Mem.owns_live hs.1
  have hsame : ∀ b ∈ other, h1.read b = h.read b :=
    fun b hb => hframe b (hdisj b hb) (hlive b hb)
  refine ⟨h1, p1, c1, e1, ht1, ⟨Mem.owns_frame hs.1 hsame, hs.2⟩, ?_, hsame⟩
  intro b hb hb1
  rcases hsub b hb1 with hm | hfree
  · exact hdisj b hb hm
  · exact hlive b hb hfree

/-! ## `clear`, assignment and independent copies -/

theorem Mem.clear_spec {t : NodePtr KeyType} {h : Heap KeyType} {p : Option Nat}
    {cells : List Nat} {fuel : Nat} (ht : Mem.Tree h p t cells) (hfuel : t.getHeight < fuel) :
    ∃ h1, Mem.clear fuel h p = some h1 ∧
      (∀ b ∈ cells, h1.read b = none) ∧ ∀ b, b ∉ cells → h1.read b = h.read b := by
  induction t generalizing h p cells fuel with
  | null =>
    obtain ⟨ho, _⟩ := ht
    cases p with
    | some a => exact absurd ho id
    | none =>
      cases fuel with
      | zero => exact absurd hfuel (Nat.not_lt_zero _)
      | succ fuel =>
        have hc : cells = [] := ho
        subst hc
        exact ⟨h, rfl, fun b hb => absurd hb (List.not_mem_nil b), fun _ _ => rfl⟩
  | node key left right ihl ihr =>
    obtain ⟨ho, hnd⟩ := ht
    cases p with
    | none => exact absurd ho id
    | some a =>
      obtain ⟨pl, pr, cl, cr, hread, hol, hor, hcells⟩ := ho
      subst hcells
      obtain ⟨hacl, hndlr⟩ := List.nodup_cons.mp hnd
      obtain ⟨hndl, hndr, hdisj⟩ := List.nodup_append.mp hndlr
      have hal : a ∉ cl := fun hm => hacl (List.mem_append_left _ hm)
      have har : a ∉ cr := fun hm => hacl (List.mem_append_right _ hm)
      cases fuel with
      | zero => exact absurd hfuel (Nat.not_lt_zero _)
      | succ fuel =>
        simp only [NodePtr.getHeight] at hfuel
        obtain ⟨h1, e1, hnone1, hframe1⟩ := @ihl h pl cl fuel ⟨hol, hndl⟩ (by omega)
        have hread1 : h1.read a = some ⟨key, pl, pr⟩ := by
          rw [hframe1 a hal, hread]
        have hor1 : Mem.Owns h1 pr right cr :=
          Mem.owns_frame hor (fun b hb => hframe1 b (fun hbl => hdisj hbl hb))
        obtain ⟨h2, e2, hnone2, hframe2⟩ := @ihr h1 pr cr fuel ⟨hor1, hndr⟩ (by omega)
        refine ⟨h2.free a, ?_, ?_, ?_⟩
        · simp only [Mem.clear, hread, e1, hread1, e2]
        · intro b hb
          rw [Heap.read_free]
          by_cases hba : b = a
          · rw [if_pos hba]
          · rw [if_neg hba]
            rcases List.mem_cons.mp hb with hEq | hb
            · exact absurd hEq hba
            · by_cases hbr : b ∈ cr
              · exact hnone2 b hbr
              · rw [hframe2 b hbr]
                rcases List.mem_append.mp hb with hbl | hbr2
                · exact hnone1 b hbl
                · exact absurd hbr2 hbr
        · intro b hb
          have hba : b ≠ a := fun hEq => hb (hEq ▸ List.mem_cons_self _ _)
          rw [Heap.read_free, if_neg hba,
            hframe2 b (fun hm => hb (List.mem_cons_of_mem _ (List.mem_append_right _ hm))),
            hframe1 b (fun hm => hb (List.mem_cons_of_mem _ (List.mem_append_left _ hm)))]

theorem Mem.unchanged_of_frame [LinearOrder KeyType] {h h1 : Heap KeyType} {q : Option Nat}
    {s : NodePtr KeyType} {cells : List Nat} (hs : Mem.Tree h1 q s cells)
    (hsame : ∀ b ∈ cells, h1.read b = h.read b) : Mem.Unchanged h h1 q s cells := by
  refine ⟨hs, hsame, fun s1 cells1 ho => ?_⟩
  rw [Mem.owns_unique ho hs.1]
  exact ⟨rfl, fun _ => rfl, rfl, rfl, rfl, fun _ => ⟨rfl, rfl, rfl, rfl⟩⟩

theorem Mem.independentCopy_of_disjoint [LinearOrder KeyType] {alloc : Heap KeyType → Nat}
    (hfresh : Mem.Fresh alloc) {h : Heap KeyType} {root copyRoot : Option Nat}
    {t : NodePtr KeyType} {cells copyCells : List Nat} (calls : List (Call KeyType))
    {fuel : Nat} (ht : Mem.Tree h root t cells) (hc : Mem.Tree h copyRoot t copyCells)
    (hdisj : ∀ b ∈ copyCells, b ∉ cells) (hfuel : t.size + calls.length < fuel) :
    Mem.IndependentCopy alloc fuel h root copyRoot t cells calls := by
  obtain ⟨h1, p1, c1, e1, ht1, hs1, _, hsame1⟩ :=
    Mem.run_independent hfresh calls hc ht (fun b hb hbc => hdisj b hbc hb) hfuel
  obtain ⟨h2, p2, c2, e2, ht2, hs2, _, hsame2⟩ :=
    Mem.run_independent hfresh calls ht hc hdisj hfuel
  exact ⟨copyCells, ht, hc, hdisj,
    ⟨h1, p1, c1, e1, ht1, Mem.unchanged_of_frame hs1 hsame1⟩,
    ⟨h2, p2, c2, e2, ht2, Mem.unchanged_of_frame hs2 hsame2⟩⟩

theorem Mem.copyOf_independent [LinearOrder KeyType] {alloc : Heap KeyType → Nat}
    (hfresh : Mem.Fresh alloc) {h : Heap KeyType} {root : Option Nat} {t : NodePtr KeyType}
    {cells : List Nat} (calls : List (Call KeyType)) {fuel : Nat}
    (ht : Mem.Tree h root t cells) (hfuel : t.size + calls.length < fuel) :
    ∃ h1 copyRoot, Mem.copyOf alloc fuel h root = some (h1, copyRoot) ∧
      Mem.IndependentCopy alloc fuel h1 root copyRoot t cells calls := by
  have hheight : t.getHeight < fuel :=
    lt_of_le_of_lt (NodePtr.getHeight_le_size t) (by omega)
  obtain ⟨h1, p1, c1, e1, hc, hfree, hext⟩ := Mem.copy_spec hfresh ht.1 hheight
  have hlive : ∀ b ∈ cells, h.read b ≠ none := Mem.owns_live ht.1
  have ht1 : Mem.Tree h1 root t cells :=
    ⟨Mem.owns_frame ht.1 (fun b hb => hext b (hlive b hb)), ht.2⟩
  exact ⟨h1, p1, e1, Mem.independentCopy_of_disjoint hfresh calls ht1 hc
    (fun b hb hbc => hlive b hbc (hfree b hb)) hfuel⟩

theorem Mem.assign_independent [LinearOrder KeyType] {alloc : Heap KeyType → Nat}
    (hfresh : Mem.Fresh alloc) {h : Heap KeyType} {root selfRoot : Option Nat}
    {t old : NodePtr KeyType} {cells oldCells : List Nat} (calls : List (Call KeyType))
    {fuel : Nat} (ht : Mem.Tree h root t cells) (hold : Mem.Tree h selfRoot old oldCells)
    (hdisj : ∀ b ∈ oldCells, b ∉ cells) (hfuelOld : old.getHeight < fuel)
    (hfuel : t.size + calls.length < fuel) :
    ∃ h1 copyRoot, Mem.assign alloc fuel h selfRoot root false = some (h1, copyRoot) ∧
      Mem.IndependentCopy alloc fuel h1 root copyRoot t cells calls := by
  have hheight : t.getHeight < fuel :=
    lt_of_le_of_lt (NodePtr.getHeight_le_size t) (by omega)
  obtain ⟨h0, e0, _, hframe0⟩ := Mem.clear_spec hold hfuelOld
  have hsame0 : ∀ b ∈ cells, h0.read b = h.read b :=
    fun b hb => hframe0 b (fun hbo => hdisj b hbo hb)
  have ht0 : Mem.Tree h0 root t cells := ⟨Mem.owns_frame ht.1 hsame0, ht.2⟩
  obtain ⟨h1, p1, c1, e1, hc, hfree, hext⟩ := Mem.copy_spec hfresh ht0.1 hheight
  have hlive : ∀ b ∈ cells, h0.read b ≠ none := Mem.owns_live ht0.1
  have ht1 : Mem.Tree h1 root t cells :=
    ⟨Mem.owns_frame ht0.1 (fun b hb => hext b (hlive b hb)), ht0.2⟩
  refine ⟨h1, p1, ?_, Mem.independentCopy_of_disjoint hfresh calls ht1 hc
    (fun b hb hbc => hlive b hbc (hfree b hb)) hfuel⟩
  simp only [Mem.assign, Bool.not_false, if_true, e0, e1]

end Memory

section RoundTrip

variable [LinearOrder KeyType]

/-! ## Rebuilding a tree from its pre-order keys -/

omit [LinearOrder KeyType] in
theorem NodePtr.all_iff_preOrderKeys (p : KeyType → Prop) (t : NodePtr KeyType) :
    t.All p ↔ ∀ x ∈ t.preOrderKeys, p x := by
  induction t with
  | null => simp [NodePtr.All, NodePtr.preOrderKeys]
  | node key left right ihl ihr =>
    simp only [NodePtr.All, NodePtr.preOrderKeys, ihl, ihr, List.mem_append, List.mem_cons]
    constructor
    · rintro ⟨hk, hl, hr⟩ x (rfl | hx | hx)
      · exact hk
      · exact hl x hx
      · exact hr x hx
    · intro h
      exact ⟨h _ (Or.inl rfl), fun x hx => h x (Or.inr (Or.inl hx)),
        fun x hx => h x (Or.inr (Or.inr hx))⟩

theorem NodePtr.foldl_add_left (key : KeyType) (right : NodePtr KeyType) {keys : List KeyType}
    (h : ∀ x ∈ keys, x < key) (left : NodePtr KeyType) :
    keys.foldl NodePtr.add (.node key left right) =
      .node key (keys.foldl NodePtr.add left) right := by
  induction keys generalizing left with
  | nil => rfl
  | cons x keys ih =>
    have hx : x < key := h x (List.mem_cons_self _ _)
    rw [List.foldl_cons, NodePtr.add, if_pos hx,
      ih (fun y hy => h y (List.mem_cons_of_mem _ hy)), List.foldl_cons]

theorem NodePtr.foldl_add_right (key : KeyType) (left : NodePtr KeyType) {keys : List KeyType}
    (h : ∀ x ∈ keys, key < x) (right : NodePtr KeyType) :
    keys.foldl NodePtr.add (.node key left right) =
      .node key left (keys.foldl NodePtr.add right) := by
  induction keys generalizing right with
  | nil => rfl
  | cons x keys ih =>
    have hx : key < x := h x (List.mem_cons_self _ _)
    rw [List.foldl_cons, NodePtr.add, if_neg (lt_asymm hx), if_pos hx,
      ih (fun y hy => h y (List.mem_cons_of_mem _ hy)), List.foldl_cons]

theorem NodePtr.foldl_add_preOrderKeys {t : NodePtr KeyType} (ht : t.Ordered) :
    t.preOrderKeys.foldl NodePtr.add .null = t := by
  induction t with
  | null => rfl
  | node key left right ihl ihr =>
    obtain ⟨h1, h2, h3, h4⟩ := ht
    rw [NodePtr.preOrderKeys, List.foldl_cons, NodePtr.add, List.foldl_append,
      NodePtr.foldl_add_left key .null ((NodePtr.all_iff_preOrderKeys _ _).mp h1), ihl h3,
      NodePtr.foldl_add_right key left ((NodePtr.all_iff_preOrderKeys _ _).mp h2), ihr h4]

theorem BST.root_foldl_add (t : BST KeyType) (keys : List KeyType) :
    (keys.foldl BST.add t).root = keys.foldl NodePtr.add t.root := by
  induction keys generalizing t with
  | nil => rfl
  | cons x keys ih => rw [List.foldl_cons, ih, List.foldl_cons, BST.add]

theorem BST.build_preOrderKeys {t : BST KeyType} (ht : t.Ordered) :
    BST.build t.root.preOrderKeys = t := by
  obtain ⟨root⟩ := t
  have := BST.root_foldl_add (BST.new : BST KeyType) root.preOrderKeys
  rw [show (BST.new : BST KeyType).root = .null from rfl, NodePtr.foldl_add_preOrderKeys ht]
    at this
  cases hb : BST.build root.preOrderKeys with
  | mk r =>
    rw [BST.build] at hb
    rw [hb] at this
    exact congrArg BST.mk this

end RoundTrip

section Visits

/-! ## Every traversal visits every node once -/

theorem NodePtr.preOrderKeys_perm (t : NodePtr KeyType) :
    t.preOrderKeys.Perm t.inOrderKeys := by
  induction t with
  | null => exact List.Perm.refl _
  | node key left right ihl ihr =>
    rw [NodePtr.preOrderKeys, NodePtr.inOrderKeys]
    exact ((ihl.append ihr).cons key).trans List.perm_middle.symm

theorem NodePtr.postOrderKeys_perm (t : NodePtr KeyType) :
    t.postOrderKeys.Perm t.inOrderKeys := by
  induction t with
  | null => exact List.Perm.refl _
  | node key left right ihl ihr =>
    rw [NodePtr.postOrderKeys, NodePtr.inOrderKeys, List.append_assoc]
    exact ihl.append (List.perm_append_comm.trans (ihr.cons key))

theorem NodePtr.levels_perm (t : NodePtr KeyType) (H : Nat) (h : t.getHeight ≤ H) :
    ((List.range H).flatMap (fun d => t.levelKeys d)).Perm t.preOrderKeys := by
  induction t generalizing H with
  | null => simp [NodePtr.levelKeys, NodePtr.preOrderKeys]
  | node key left right ihl ihr =>
    simp only [NodePtr.getHeight] at h
    cases H with
    | zero => omega
    | succ H =>
      rw [range_succ_flatMap, NodePtr.preOrderKeys]
      simp only [NodePtr.levelKeys, List.singleton_append]
      refine List.Perm.cons key ?_
      exact (List.flatMap_append_perm _ _ _).symm.trans
        ((ihl H (by omega)).append (ihr H (by omega)))

theorem NodePtr.levelOrderKeys_perm (t : NodePtr KeyType) :
    t.levelOrderKeys.Perm t.inOrderKeys :=
  (NodePtr.levels_perm t t.getHeight (Nat.le_refl _)).trans (NodePtr.preOrderKeys_perm t)

/-! ## Height after `add` and `remove` -/

theorem NodePtr.getHeight_add [LinearOrder KeyType] (t : NodePtr KeyType) (k : KeyType) :
    t.getHeight ≤ (t.add k).getHeight ∧ (t.add k).getHeight ≤ t.getHeight + 1 := by
  induction t with
  | null =>
    simp only [NodePtr.add, NodePtr.getHeight]
    omega
  | node key left right ihl ihr =>
    simp only [NodePtr.add]
    split_ifs
    · simp only [NodePtr.getHeight]
      omega
    · simp only [NodePtr.getHeight]
      omega
    · omega

theorem NodePtr.getHeight_remove [LinearOrder KeyType] (t : NodePtr KeyType) (k : KeyType) :
    (t.remove k).getHeight ≤ t.getHeight ∧ t.getHeight ≤ (t.remove k).getHeight + 1 := by
  induction t generalizing k with
  | null =>
    simp only [NodePtr.remove, NodePtr.getHeight]
    omega
  | node key left right ihl ihr =>
    rw [NodePtr.remove_node]
    split_ifs
    · have := ihl k
      simp only [NodePtr.getHeight]
      omega
    · have := ihr k
      simp only [NodePtr.getHeight]
      omega
    · cases left with
      | null =>
        show right.getHeight ≤ _ ∧ _ ≤ right.getHeight + 1
        simp only [NodePtr.getHeight]
        omega
      | node lkey lleft lright =>
        cases right with
        | null =>
          show (NodePtr.node lkey lleft lright).getHeight ≤ _ ∧
            _ ≤ (NodePtr.node lkey lleft lright).getHeight + 1
          simp only [NodePtr.getHeight]
          omega
        | node rkey rleft rright =>
          have := ihl (Node.findMax lkey lright)
          have e : ∀ (x : KeyType) (a b : NodePtr KeyType),
              (NodePtr.node x a b).getHeight = 1 + max a.getHeight b.getHeight :=
            fun _ _ _ => rfl
          show (NodePtr.node _ _ _).getHeight ≤ _ ∧ _ ≤ (NodePtr.node _ _ _).getHeight + 1
          rw [e, e key]
          omega

/-! ## Width, leaves and size -/

theorem NodePtr.getLeafCount_pos_of_ne {t : NodePtr KeyType} (h : t ≠ .null) :
    1 ≤ t.getLeafCount := by
  induction t with
  | null => exact absurd rfl h
  | node key left right ihl ihr =>
    rw [NodePtr.getLeafCount]
    split_ifs with hleaf
    · exact Nat.le_refl _
    · cases left with
      | null =>
        cases right with
        | null => simp [Node.isLeaf] at hleaf
        | node rkey rleft rright =>
          have := ihr (by simp)
          omega
      | node lkey lleft lright =>
        have := ihl (by simp)
        omega

theorem NodePtr.getLeafCount_pos (key : KeyType) (left right : NodePtr KeyType) :
    1 ≤ (NodePtr.node key left right).getLeafCount :=
  NodePtr.getLeafCount_pos_of_ne (by simp)

theorem NodePtr.getLevelWidth_le_getLeafCount (t : NodePtr KeyType) (d : Nat) :
    t.getLevelWidth d ≤ t.getLeafCount := by
  induction t generalizing d with
  | null => exact Nat.le_refl _
  | node key left right ihl ihr =>
    cases d with
    | zero => exact NodePtr.getLeafCount_pos key left right
    | succ d =>
      have h1 := ihl d
      have h2 := ihr d
      rw [NodePtr.getLevelWidth, NodePtr.getLeafCount]
      split_ifs with hleaf
      · cases left <;> cases right <;> simp [Node.isLeaf] at hleaf
        simp [NodePtr.getLevelWidth]
      · omega

theorem NodePtr.getLeafCount_le_size (t : NodePtr KeyType) : t.getLeafCount ≤ t.size := by
  induction t with
  | null => exact Nat.le_refl _
  | node key left right ihl ihr =>
    rw [NodePtr.getLeafCount, NodePtr.size]
    split_ifs <;> omega

theorem BST.getWidth_le_getLeafCount (t : BST KeyType) : t.getWidth ≤ t.getLeafCount := by
  obtain ⟨_, _, h3⟩ :=
    foldl_max_spec (fun d => t.root.getLevelWidth d) (List.range t.root.getHeight) 0
  rcases h3 with h3 | ⟨d, _, hd⟩
  · rw [BST.getWidth, h3]
    exact Nat.zero_le _
  · rw [BST.getWidth, ← hd]
    exact NodePtr.getLevelWidth_le_getLeafCount t.root d

theorem BST.one_le_getWidth (key : KeyType) (left right : NodePtr KeyType) :
    1 ≤ (BST.mk (.node key left right)).getWidth := by
  obtain ⟨_, h2, _⟩ :=
    foldl_max_spec (fun d => (NodePtr.node key left right).getLevelWidth d)
      (List.range (NodePtr.node key left right).getHeight) 0
  have h0 : 0 ∈ List.range (NodePtr.node key left right).getHeight := by
    rw [List.mem_range, NodePtr.getHeight]
    omega
  exact h2 0 h0

end Visits

/-! ## The claims -/

section Claims

variable [LinearOrder KeyType]

/-- C1: `add` preserves the ordering invariant. The empty tree satisfies the
invariant, and for every tree satisfying it and every key `k` the tree returned
by `add(k)` satisfies it too, so the keys it stores are pairwise distinct; hence
every tree built by `add` calls from the empty tree satisfies the invariant and
stores no key twice. -/
theorem add_preserves_ordering :
    (BST.new : BST KeyType).Ordered ∧
      (∀ (t : BST KeyType) (k : KeyType), t.Ordered →
        (t.add k).Ordered ∧ (t.add k).root.inOrderKeys.Nodup) ∧
      ∀ keys : List KeyType,
        (BST.build keys).Ordered ∧ (BST.build keys).root.inOrderKeys.Nodup :=
  ⟨trivial,
    fun _ k h =>
      ⟨NodePtr.ordered_add k h, NodePtr.nodup_inOrderKeys (NodePtr.ordered_add k h)⟩,
    fun keys => ⟨BST.ordered_build keys, NodePtr.nodup_inOrderKeys (BST.ordered_build keys)⟩⟩

/-- C2: `remove` preserves the ordering invariant, for every tree satisfying it
and every key, present or absent, the two-children case included. -/
theorem remove_preserves_ordering (t : BST KeyType) (k : KeyType) (h : t.Ordered) :
    (t.remove k).Ordered :=
  NodePtr.ordered_remove k h

/-- C3: for a duplicate-free list of keys, the in-order key sequence of the tree
built by adding the keys in list order is strictly ascending, is a permutation of
the list, is the sorted list, and `getInOrderTraversal` writes exactly that
sequence. -/
theorem inOrder_build_sorted (keys : List KeyType) (h : keys.Nodup) :
    (BST.build keys).root.inOrderKeys.Sorted (fun a b => a < b) ∧
      (BST.build keys).root.inOrderKeys.Perm keys ∧
      (BST.build keys).root.inOrderKeys = keys.insertionSort (fun a b => a ≤ b) ∧
      ∀ render : KeyType → String,
        (BST.build keys).getInOrderTraversal render =
          writeKeys render "" (keys.insertionSort (fun a b => a ≤ b)) :=
  ⟨(NodePtr.ordered_iff_sorted _).mp (BST.ordered_build keys), BST.perm_build h,
    BST.inOrderKeys_build h, fun render => by
      rw [BST.getInOrderTraversal, NodePtr.getInOrderTraversal_eq, BST.inOrderKeys_build h]⟩

/-- C4: membership after `add`. On a tree satisfying the ordering invariant,
`has(j)` after `add(k)` is true exactly when `j = k` or `has(j)` was true before;
in particular `has(k)` is true after `add(k)`. -/
theorem has_after_add (t : BST KeyType) (k j : KeyType) (h : t.Ordered) :
    ((t.add k).has j = true ↔ j = k ∨ t.has j = true) ∧ (t.add k).has k = true :=
  ⟨NodePtr.has_add h k j, NodePtr.has_add_self t.root k⟩

/-- C5: membership after `remove`. On a tree satisfying the ordering invariant,
`has(j)` after `remove(k)` is true exactly when `j ≠ k` and `has(j)` was true
before; in particular `has(k)` is false after `remove(k)`. -/
theorem has_after_remove (t : BST KeyType) (k j : KeyType) (h : t.Ordered) :
    ((t.remove k).has j = true ↔ j ≠ k ∧ t.has j = true) ∧ (t.remove k).has k = false := by
  refine ⟨NodePtr.has_remove h k j, ?_⟩
  have := NodePtr.has_remove h k k
  cases hk : (t.remove k).has k
  · rfl
  · exact absurd rfl (this.mp hk).1

/-- C6: adding a key that is present is an exact no-op on every tree, and `add` is
idempotent on every tree. -/
theorem add_present_noop :
    (∀ (t : BST KeyType) (k : KeyType), t.has k = true → t.add k = t) ∧
      ∀ (t : BST KeyType) (k : KeyType), (t.add k).add k = t.add k :=
  ⟨fun _ _ h => congrArg BST.mk (NodePtr.add_eq_self_of_has h),
    fun t k => congrArg BST.mk (NodePtr.add_add t.root k)⟩

/-- C7: removing an absent key is a no-op on every tree; `remove` is a total
function returning a tree, it has no failure result. -/
theorem remove_absent_noop (t : BST KeyType) (k : KeyType) (h : t.has k = false) :
    t.remove k = t :=
  congrArg BST.mk (NodePtr.remove_eq_self_of_not_has h)

/-- C8: after any sequence of `add` and `remove` calls on an initially empty tree,
`size()` is the number of `add` calls whose key was absent when called minus the
number of `remove` calls whose key was present when called, and it is the
cardinality of the set obtained by the same inserts and erases on the empty set. -/
theorem size_after_calls (calls : List (Call KeyType)) :
    (BST.new.run calls).size =
        BST.new.addsOfAbsent calls - BST.new.removesOfPresent calls ∧
      BST.new.removesOfPresent calls ≤ BST.new.addsOfAbsent calls ∧
      (BST.new.run calls).size = (Call.keySet ∅ calls).card := by
  have h := BST.size_run (t := (BST.new : BST KeyType)) trivial calls
  have hs : (BST.new : BST KeyType).size = 0 := rfl
  have hc := BST.size_eq_card (BST.ordered_run (t := (BST.new : BST KeyType)) trivial calls)
  rw [BST.toFinset_run (t := (BST.new : BST KeyType)) trivial calls] at hc
  refine ⟨by omega, by omega, ?_⟩
  simpa [BST.new, NodePtr.inOrderKeys] using hc

omit [LinearOrder KeyType] in
/-- C9: for every tree, `empty()` is true if and only if `size() == 0`. -/
theorem empty_iff_size_zero (t : BST KeyType) : t.empty = true ↔ t.size = 0 := by
  obtain ⟨root⟩ := t
  cases root with
  | null => simp [BST.empty, BST.size, NodePtr.size]
  | node key left right => simp [BST.empty, BST.size, NodePtr.size]

/-- C10: removal at a node with two children uses the in-order predecessor. In a
tree satisfying the ordering invariant where key `k` sits at the position `path`
in a node with left subtree `L` and right subtree `R`, both present, `remove(k)`
returns the same tree with the subtree at that position replaced by the node whose
key is the greatest key of `L`, whose left subtree is `L` with its right-most node
replaced by that node's left child, and whose right subtree is `R`. In the tree
built from 20, 40, 10, 70, 99, -2, 59, 43, removing 70 puts 59 in its place, the
pre-order text becomes `20 10 -2 40 59 43 99 ` and the size is 7. -/
theorem remove_two_children_predecessor :
    (∀ (t : BST KeyType) (path : List Dir) (k lkey rkey : KeyType)
        (lleft lright rleft rright : NodePtr KeyType),
        t.Ordered →
        t.root.subtreeAt path =
            .node k (.node lkey lleft lright) (.node rkey rleft rright) →
          (t.remove k).root =
              t.root.replaceAt path
                (.node (Node.findMax lkey lright) (Node.dropRightmost lkey lleft lright)
                  (.node rkey rleft rright)) ∧
            (t.remove k).root.subtreeAt path =
              .node (Node.findMax lkey lright) (Node.dropRightmost lkey lleft lright)
                (.node rkey rleft rright) ∧
            Node.findMax lkey lright ∈ (NodePtr.node lkey lleft lright).inOrderKeys ∧
            ∀ x ∈ (NodePtr.node lkey lleft lright).inOrderKeys, x ≤ Node.findMax lkey lright) ∧
      (BST.build ([20, 40, 10, 70, 99, -2, 59, 43] : List Int)).root.subtreeAt [.right, .right] =
        .node 70 (.node 59 (.node 43 .null .null) .null) (.node 99 .null .null) ∧
      ((BST.build ([20, 40, 10, 70, 99, -2, 59, 43] : List Int)).remove 70).root.subtreeAt
          [.right, .right] =
        .node 59 (.node 43 .null .null) (.node 99 .null .null) ∧
      ((BST.build ([20, 40, 10, 70, 99, -2, 59, 43] : List Int)).remove 70).getPreOrderTraversal
          (fun i => toString i) = "20 10 -2 40 59 43 99 " ∧
      ((BST.build ([20, 40, 10, 70, 99, -2, 59, 43] : List Int)).remove 70).size = 7 := by
  refine ⟨?_, by decide, by decide, by decide, by decide⟩
  intro t path k lkey rkey lleft lright rleft rright ht hp
  have hsub := NodePtr.ordered_subtreeAt ht path
  rw [hp] at hsub
  have hrem : (t.remove k).root =
      t.root.replaceAt path
        (.node (Node.findMax lkey lright) (Node.dropRightmost lkey lleft lright)
          (.node rkey rleft rright)) := by
    rw [← Node.remove_two_children hsub]
    exact NodePtr.remove_at ht path hp
  refine ⟨hrem, ?_, Node.findMax_mem lkey lleft lright, Node.le_findMax hsub.2.2.1⟩
  rw [hrem]
  exact NodePtr.subtreeAt_replaceAt path hp _

/-- C11: the driver's example. Adding 20, 40, 10, 70, 99, -2, 59, 43 in that order
to an empty integer tree gives the tree shown, whose root key is 20; its pre-order
text is `20 10 -2 40 70 59 43 99 ` with the trailing space, `has(59)` is true and
`has(100)` is false. -/
theorem driver_example :
    (BST.build ([20, 40, 10, 70, 99, -2, 59, 43] : List Int)).root =
        .node 20 (.node 10 (.node (-2) .null .null) .null)
          (.node 40 .null
            (.node 70 (.node 59 (.node 43 .null .null) .null) (.node 99 .null .null))) ∧
      (BST.build ([20, 40, 10, 70, 99, -2, 59, 43] : List Int)).getPreOrderTraversal
        (fun i => toString i) = "20 10 -2 40 70 59 43 99 " ∧
      (BST.build ([20, 40, 10, 70, 99, -2, 59, 43] : List Int)).has 59 = true ∧
      (BST.build ([20, 40, 10, 70, 99, -2, 59, 43] : List Int)).has 100 = false := by
  decide

/-- C12: copy construction and assignment from another object produce a tree
structurally identical to the source, so every query agrees between copy and
source; assigning a tree to itself leaves it unchanged. -/
theorem copy_structurally_identical :
    (∀ other : BST KeyType, BST.copyOf other = other ∧ (BST.copyOf other).Agree other) ∧
      (∀ self rhs : BST KeyType,
        self.assign rhs false = rhs ∧ (self.assign rhs false).Agree rhs) ∧
      ∀ t : BST KeyType, t.assign t true = t := by
  have hagree : ∀ t : BST KeyType, t.Agree t :=
    fun t => ⟨rfl, fun _ => rfl, rfl, rfl, rfl, fun _ => ⟨rfl, rfl, rfl, rfl⟩⟩
  have hcopy : ∀ other : BST KeyType, BST.copyOf other = other :=
    fun other => congrArg BST.mk (NodePtr.copy_eq other.root)
  have hassign : ∀ self rhs : BST KeyType, self.assign rhs false = rhs :=
    fun self rhs => congrArg BST.mk (NodePtr.copy_eq rhs.root)
  refine ⟨fun other => ⟨hcopy other, ?_⟩, fun self rhs => ⟨hassign self rhs, ?_⟩, fun t => rfl⟩
  · rw [hcopy]
    exact hagree other
  · rw [hassign]
    exact hagree rhs

omit [LinearOrder KeyType] in
/-- C14: `getHeight()` is the number of nodes on the longest root-to-leaf path. It
is 0 for the empty tree; for a non-empty tree some root-to-leaf path has exactly
`getHeight()` nodes and no root-to-leaf path has more; a single-node tree has
height 1. -/
theorem height_longest_path (t : BST KeyType) :
    (t.empty = true → t.getHeight = 0) ∧
      (t.empty = false →
        (∃ path : List Dir, t.root.IsLeafAt path ∧ path.length + 1 = t.getHeight) ∧
          ∀ path : List Dir, t.root.IsLeafAt path → path.length + 1 ≤ t.getHeight) ∧
      ∀ key : KeyType, (BST.mk (.node key .null .null)).getHeight = 1 := by
  obtain ⟨root⟩ := t
  refine ⟨?_, ?_, fun _ => rfl⟩
  · cases root with
    | null => exact fun _ => rfl
    | node key left right => exact fun h => absurd h (by simp [BST.empty])
  · intro h
    have hr : root ≠ .null := by
      rintro rfl
      simp [BST.empty] at h
    exact ⟨NodePtr.exists_leaf_path hr, fun path hp => NodePtr.leaf_path_le hp⟩

omit [LinearOrder KeyType] in
/-- C15: `getWidth()` is the maximum, over every depth `d ≥ 0`, of the number of
nodes at depth `d`: no depth has more nodes and some depth has exactly that many.
`getLevelWidth` counts the nodes of a depth, and a single breadth-first pass
counting each level returns the same value. The width is 0 for the empty tree and
1 for a single-node tree. -/
theorem width_max_level (t : BST KeyType) :
    (∀ d : Nat, (t.root.levelKeys d).length ≤ t.getWidth) ∧
      (∃ d : Nat, (t.root.levelKeys d).length = t.getWidth) ∧
      (∀ d : Nat, t.root.getLevelWidth d = (t.root.levelKeys d).length) ∧
      t.breadthFirstWidth = t.getWidth ∧
      (BST.new : BST KeyType).getWidth = 0 ∧
      ∀ key : KeyType, (BST.mk (.node key .null .null)).getWidth = 1 := by
  obtain ⟨h1, h2, h3⟩ :=
    foldl_max_spec (fun d => t.root.getLevelWidth d) (List.range t.root.getHeight) 0
  refine ⟨?_, ?_, NodePtr.getLevelWidth_eq_length t.root, BST.breadthFirstWidth_eq t,
    rfl, fun _ => rfl⟩
  · intro d
    by_cases hd : d < t.root.getHeight
    · rw [← NodePtr.getLevelWidth_eq_length]
      exact h2 d (List.mem_range.mpr hd)
    · rw [NodePtr.levelKeys_eq_nil (not_lt.mp hd)]
      exact Nat.zero_le _
  · rcases h3 with h3 | ⟨d, _, hd⟩
    · refine ⟨t.root.getHeight, ?_⟩
      rw [NodePtr.levelKeys_eq_nil (Nat.le_refl _)]
      exact h3.symm
    · exact ⟨d, by rw [← NodePtr.getLevelWidth_eq_length]; exact hd⟩

omit [LinearOrder KeyType] in
/-- C16: the text the queue-based `getLevelOrderTraversal()` writes is the text of
the keys at depth 0, 1, ..., `getHeight() - 1` in that order, each depth from left
to right. It is the empty string for the empty tree and the key's rendering
followed by a space for a single-node tree. -/
theorem level_order_by_levels (render : KeyType → String) (t : BST KeyType) :
    t.getLevelOrderTraversal render =
        textOf render ((List.range t.getHeight).flatMap (fun d => t.root.levelKeys d)) ∧
      (BST.new : BST KeyType).getLevelOrderTraversal render = "" ∧
      ∀ key : KeyType,
        (BST.mk (.node key .null .null)).getLevelOrderTraversal render = render key ++ " " := by
  refine ⟨BST.getLevelOrderTraversal_eq render t, rfl, fun key => ?_⟩
  have hk : (NodePtr.node key .null .null).levelOrderKeys = [key] := rfl
  rw [BST.getLevelOrderTraversal_eq, hk, textOf_cons, textOf_nil, String.append_empty]

omit [LinearOrder KeyType] in
/-- C17: the text format of the traversals. Each of the four traversals returns
the concatenation, in visit order (pre-order: node, left, right; in-order: left,
node, right; post-order: left, right, node; level-order: depth by depth), of each
key's rendering immediately followed by one space; the text of the empty tree is
empty and the text of a non-empty tree ends with a space. -/
theorem traversal_text_format (render : KeyType → String) (t : BST KeyType) :
    (t.getPreOrderTraversal render = textOf render t.root.preOrderKeys ∧
        t.getInOrderTraversal render = textOf render t.root.inOrderKeys ∧
        t.getPostOrderTraversal render = textOf render t.root.postOrderKeys ∧
        t.getLevelOrderTraversal render = textOf render t.root.levelOrderKeys) ∧
      (t.empty = true →
        t.getPreOrderTraversal render = "" ∧ t.getInOrderTraversal render = "" ∧
          t.getPostOrderTraversal render = "" ∧ t.getLevelOrderTraversal render = "") ∧
      (t.empty = false →
        (∃ s : String, t.getPreOrderTraversal render = s ++ " ") ∧
          (∃ s : String, t.getInOrderTraversal render = s ++ " ") ∧
          (∃ s : String, t.getPostOrderTraversal render = s ++ " ") ∧
          ∃ s : String, t.getLevelOrderTraversal render = s ++ " ") := by
  have hpre : t.getPreOrderTraversal render = textOf render t.root.preOrderKeys := by
    rw [BST.getPreOrderTraversal, NodePtr.getPreOrderTraversal_eq, writeKeys_eq_textOf,
      String.empty_append]
  have hin : t.getInOrderTraversal render = textOf render t.root.inOrderKeys := by
    rw [BST.getInOrderTraversal, NodePtr.getInOrderTraversal_eq, writeKeys_eq_textOf,
      String.empty_append]
  have hpost : t.getPostOrderTraversal render = textOf render t.root.postOrderKeys := by
    rw [BST.getPostOrderTraversal, NodePtr.getPostOrderTraversal_eq, writeKeys_eq_textOf,
      String.empty_append]
  have hlevel := BST.getLevelOrderTraversal_eq render t
  refine ⟨⟨hpre, hin, hpost, hlevel⟩, ?_, ?_⟩
  · obtain ⟨root⟩ := t
    cases root with
    | null => exact fun _ => ⟨rfl, rfl, rfl, rfl⟩
    | node key left right => exact fun h => absurd h (by simp [BST.empty])
  · obtain ⟨root⟩ := t
    cases root with
    | null => exact fun h => absurd h (by simp [BST.empty])
    | node key left right =>
      intro _
      rw [hpre, hin, hpost, hlevel]
      refine ⟨textOf_ends_with_space render ?_, textOf_ends_with_space render ?_,
        textOf_ends_with_space render ?_, textOf_ends_with_space render ?_⟩
      · simp [NodePtr.preOrderKeys]
      · simp [NodePtr.inOrderKeys]
      · simp [NodePtr.postOrderKeys]
      · have : (NodePtr.node key left right).levelOrderKeys =
            [key] ++ (List.range (max left.getHeight right.getHeight)).flatMap
              (fun d => (NodePtr.node key left right).levelKeys (d + 1)) := by
          rw [NodePtr.levelOrderKeys, NodePtr.getHeight, Nat.add_comm, range_succ_flatMap]
          rfl
        show (NodePtr.node key left right).levelOrderKeys ≠ []
        rw [this]
        simp

/-- C18: adding the keys of a list (duplicates allowed) to an empty tree and then
removing the keys of the same list in the same order yields the empty tree:
`empty()` is true, `size()` is 0, `has` is false for every key and every
traversal is the empty string. The driver's list 20, 40, 10, 70, 99, -2, 59, 43
is evaluated as well. -/
theorem add_all_remove_all (keys : List KeyType) :
    (BST.build keys).removeAll keys = BST.new ∧
      ((BST.build keys).removeAll keys).empty = true ∧
      ((BST.build keys).removeAll keys).size = 0 ∧
      (∀ key, ((BST.build keys).removeAll keys).has key = false) ∧
      (∀ render : KeyType → String,
        ((BST.build keys).removeAll keys).getPreOrderTraversal render = "" ∧
          ((BST.build keys).removeAll keys).getInOrderTraversal render = "" ∧
          ((BST.build keys).removeAll keys).getPostOrderTraversal render = "" ∧
          ((BST.build keys).removeAll keys).getLevelOrderTraversal render = "") ∧
      ((BST.build ([20, 40, 10, 70, 99, -2, 59, 43] : List Int)).removeAll
        [20, 40, 10, 70, 99, -2, 59, 43]).empty = true := by
  rw [BST.removeAll_build]
  exact ⟨rfl, rfl, rfl, fun _ => rfl, fun _ => ⟨rfl, rfl, rfl, rfl⟩, by decide⟩

/-- C19: on a tree satisfying the ordering invariant, `remove(k)` destroys exactly
one node when `k` is present and none when it is absent: `size()` after the call is
`size()` before minus 1 if `has(k)` was true, and `size()` before otherwise. -/
theorem remove_destroys_one_node (t : BST KeyType) (k : KeyType) (h : t.Ordered) :
    (t.has k = true → (t.remove k).size + 1 = t.size) ∧
      (t.has k = false → (t.remove k).size = t.size) ∧
      (t.remove k).size = if t.has k = true then t.size - 1 else t.size := by
  have hs : (t.remove k).size = if t.has k = true then t.size - 1 else t.size :=
    NodePtr.size_remove h k
  refine ⟨fun hk => ?_, fun hk => ?_, hs⟩
  · have hpos : 0 < t.size := NodePtr.size_pos_of_has hk
    rw [hs, if_pos hk]
    omega
  · rw [hs, if_neg (by simp [hk])]

/-- C20: `add` of an absent key attaches exactly one new leaf holding the key at a
position that was absent and changes nothing else; removing the key again restores
the tree exactly. -/
theorem add_absent_attaches_leaf (t : BST KeyType) (k : KeyType) (h : t.has k = false) :
    (∃ path : List Dir, t.root.subtreeAt path = .null ∧
        (t.add k).root = t.root.replaceAt path (.node k .null .null) ∧
        (t.add k).root.subtreeAt path = .node k .null .null) ∧
      (t.add k).size = t.size + 1 ∧
      (t.add k).remove k = t := by
  refine ⟨NodePtr.add_eq_replaceAt h, ?_, congrArg BST.mk (NodePtr.remove_add h)⟩
  have hs : (t.add k).size = if t.has k = true then t.size else t.size + 1 :=
    NodePtr.size_add t.root k
  rw [hs, if_neg (by simp [h])]

/-- C13: structural independence of a copy, on the node graph in memory. Let the
object with root pointer `root` own a tree-shaped node graph representing `t`, let
the allocator return unused addresses and let the fuel exceed `size(t)` plus the
number of calls. Then the copy constructor returns (it does not run out of fuel)
an object that represents `t` on cells disjoint from those of the original; any
sequence of `add`/`remove` calls on the copy runs to the end, gives the copy the
tree the calls give `t`, and leaves every cell of the original unchanged, so the
original's `size()`, `has(k)` for every `k` and all traversals are as before; and
symmetrically for calls on the original. The same holds for a copy made by
assigning to another object, whose old nodes are cleared first. -/
theorem copy_independent {alloc : Heap KeyType → Nat} (hfresh : Mem.Fresh alloc)
    (h : Heap KeyType) (root : Option Nat) (t : NodePtr KeyType) (cells : List Nat)
    (calls : List (Call KeyType)) (fuel : Nat) (ht : Mem.Tree h root t cells)
    (hfuel : t.size + calls.length < fuel) :
    (∃ h1 copyRoot, Mem.copyOf alloc fuel h root = some (h1, copyRoot) ∧
        Mem.IndependentCopy alloc fuel h1 root copyRoot t cells calls) ∧
      ∀ (selfRoot : Option Nat) (old : NodePtr KeyType) (oldCells : List Nat),
        Mem.Tree h selfRoot old oldCells → (∀ b ∈ oldCells, b ∉ cells) →
        old.getHeight < fuel →
          ∃ h1 copyRoot, Mem.assign alloc fuel h selfRoot root false = some (h1, copyRoot) ∧
            Mem.IndependentCopy alloc fuel h1 root copyRoot t cells calls :=
  ⟨Mem.copyOf_independent hfresh calls ht hfuel,
    fun _ _ _ hold hdisj hfuelOld =>
      Mem.assign_independent hfresh calls ht hold hdisj hfuelOld hfuel⟩

/-- C21: the pre-order round trip. For a tree satisfying the ordering invariant,
adding the keys of its pre-order traversal, in that order, to an empty tree
rebuilds the tree exactly; so two such trees with the same pre-order key sequence
are the same tree. `getPreOrderTraversal` writes that key sequence. -/
theorem preOrder_round_trip (t : BST KeyType) (h : t.Ordered) :
    BST.build t.root.preOrderKeys = t ∧
      (∀ s : BST KeyType, s.Ordered → s.root.preOrderKeys = t.root.preOrderKeys → s = t) ∧
      ∀ render : KeyType → String,
        t.getPreOrderTraversal render = textOf render t.root.preOrderKeys := by
  refine ⟨BST.build_preOrderKeys h, fun s hs he => ?_, fun render => ?_⟩
  · rw [← BST.build_preOrderKeys hs, he, BST.build_preOrderKeys h]
  · rw [BST.getPreOrderTraversal, NodePtr.getPreOrderTraversal_eq, writeKeys_eq_textOf,
      String.empty_append]

omit [LinearOrder KeyType] in
/-- C22: for every tree, the key sequences of the pre-order, in-order, post-order
and level-order traversals are permutations of one another and each has exactly
`size()` entries; the four traversal functions, the queue loop of the level-order
traversal included, write exactly these sequences. -/
theorem traversals_visit_once (t : BST KeyType) :
    (t.root.preOrderKeys.Perm t.root.inOrderKeys ∧
        t.root.preOrderKeys.Perm t.root.postOrderKeys ∧
        t.root.preOrderKeys.Perm t.root.levelOrderKeys ∧
        t.root.inOrderKeys.Perm t.root.postOrderKeys ∧
        t.root.inOrderKeys.Perm t.root.levelOrderKeys ∧
        t.root.postOrderKeys.Perm t.root.levelOrderKeys) ∧
      (t.root.preOrderKeys.length = t.size ∧ t.root.inOrderKeys.length = t.size ∧
        t.root.postOrderKeys.length = t.size ∧ t.root.levelOrderKeys.length = t.size) ∧
      ∀ render : KeyType → String,
        t.getPreOrderTraversal render = textOf render t.root.preOrderKeys ∧
          t.getInOrderTraversal render = textOf render t.root.inOrderKeys ∧
          t.getPostOrderTraversal render = textOf render t.root.postOrderKeys ∧
          t.getLevelOrderTraversal render = textOf render t.root.levelOrderKeys := by
  have hpre := NodePtr.preOrderKeys_perm t.root
  have hpost := NodePtr.postOrderKeys_perm t.root
  have hlevel := NodePtr.levelOrderKeys_perm t.root
  have hsize : t.root.inOrderKeys.length = t.size := (NodePtr.size_eq_length t.root).symm
  refine ⟨⟨hpre, hpre.trans hpost.symm, hpre.trans hlevel.symm, hpost.symm, hlevel.symm,
      hpost.trans hlevel.symm⟩,
    ⟨hpre.length_eq.trans hsize, hsize, hpost.length_eq.trans hsize,
      hlevel.length_eq.trans hsize⟩, fun render => ⟨?_, ?_, ?_, ?_⟩⟩
  · rw [BST.getPreOrderTraversal, NodePtr.getPreOrderTraversal_eq, writeKeys_eq_textOf,
      String.empty_append]
  · rw [BST.getInOrderTraversal, NodePtr.getInOrderTraversal_eq, writeKeys_eq_textOf,
      String.empty_append]
  · rw [BST.getPostOrderTraversal, NodePtr.getPostOrderTraversal_eq, writeKeys_eq_textOf,
      String.empty_append]
  · exact BST.getLevelOrderTraversal_eq render t

/-- C23: a single mutation changes the height by at most one and only in the
expected direction. For a tree satisfying the ordering invariant and every key,
`getHeight` after `add` is the height before or one more, and `getHeight` after
`remove` is the height before or one less. -/
theorem height_after_mutation (t : BST KeyType) (k : KeyType) (_h : t.Ordered) :
    (t.getHeight ≤ (t.add k).getHeight ∧ (t.add k).getHeight ≤ t.getHeight + 1) ∧
      (t.getHeight - 1 ≤ (t.remove k).getHeight ∧ t.getHeight ≤ (t.remove k).getHeight + 1 ∧
        (t.remove k).getHeight ≤ t.getHeight) := by
  have ha := NodePtr.getHeight_add t.root k
  have hr := NodePtr.getHeight_remove t.root k
  refine ⟨ha, ?_, hr.2, hr.1⟩
  have := hr.2
  show t.root.getHeight - 1 ≤ (t.root.remove k).getHeight
  omega

omit [LinearOrder KeyType] in
/-- C24: for a non-empty tree `1 ≤ getWidth() ≤ getLeafCount() ≤ size()`, and for
the empty tree all three are 0; no depth holds more nodes than the tree has
leaves. -/
theorem width_leaves_size (t : BST KeyType) :
    (t.empty = false →
        1 ≤ t.getWidth ∧ t.getWidth ≤ t.getLeafCount ∧ t.getLeafCount ≤ t.size) ∧
      (t.empty = true → t.getWidth = 0 ∧ t.getLeafCount = 0 ∧ t.size = 0) ∧
      ∀ d : Nat, (t.root.levelKeys d).length ≤ t.getLeafCount := by
  refine ⟨?_, ?_, fun d => ?_⟩
  · obtain ⟨root⟩ := t
    cases root with
    | null => exact fun h => absurd h (by simp [BST.empty])
    | node key left right =>
      exact fun _ => ⟨BST.one_le_getWidth key left right, BST.getWidth_le_getLeafCount _,
        NodePtr.getLeafCount_le_size _⟩
  · obtain ⟨root⟩ := t
    cases root with
    | null => exact fun _ => ⟨rfl, rfl, rfl⟩
    | node key left right => exact fun h => absurd h (by simp [BST.empty])
  · rw [← NodePtr.getLevelWidth_eq_length]
    exact NodePtr.getLevelWidth_le_getLeafCount t.root d

end Claims

/-! ## The claims at concrete trees -/

section Witnesses

/-- C1 at the tree built from 20, 40, 10 and the key 70. -/
theorem add_preserves_ordering_witness :
    (BST.build ([20, 40, 10] : List Int)).Ordered ∧
      ((BST.build ([20, 40, 10] : List Int)).add 70).Ordered ∧
      ((BST.build ([20, 40, 10] : List Int)).add 70).root.inOrderKeys.Nodup :=
  ⟨by decide, add_preserves_ordering.2.1 _ 70 (by decide)⟩

/-- C2 at the driver's tree and the key 70, which sits at a node with two children. -/
theorem remove_preserves_ordering_witness :
    (BST.build ([20, 40, 10, 70, 99, -2, 59, 43] : List Int)).Ordered ∧
      ((BST.build ([20, 40, 10, 70, 99, -2, 59, 43] : List Int)).remove 70).Ordered :=
  ⟨by decide, remove_preserves_ordering _ 70 (by decide)⟩

/-- C3 at the driver's list of keys. -/
theorem inOrder_build_sorted_witness :
    ([20, 40, 10, 70, 99, -2, 59, 43] : List Int).Nodup ∧
      (BST.build ([20, 40, 10, 70, 99, -2, 59, 43] : List Int)).root.inOrderKeys =
        [-2, 10, 20, 40, 43, 59, 70, 99] ∧
      (BST.build ([20, 40, 10, 70, 99, -2, 59, 43] : List Int)).getInOrderTraversal
        (fun i => toString i) = "-2 10 20 40 43 59 70 99 " :=
  ⟨by decide,
    (inOrder_build_sorted ([20, 40, 10, 70, 99, -2, 59, 43] : List Int) (by decide)).2.2.1.trans
      (by decide),
    ((inOrder_build_sorted ([20, 40, 10, 70, 99, -2, 59, 43] : List Int) (by decide)).2.2.2
      (fun i => toString i)).trans (by decide)⟩

/-- C4 at the tree built from 20, 40, 10, the added key 70 and the queried key 40. -/
theorem has_after_add_witness :
    (BST.build ([20, 40, 10] : List Int)).Ordered ∧
      (((BST.build ([20, 40, 10] : List Int)).add 70).has 40 = true ↔
        (40 : Int) = 70 ∨ (BST.build ([20, 40, 10] : List Int)).has 40 = true) ∧
      ((BST.build ([20, 40, 10] : List Int)).add 70).has 70 = true :=
  ⟨by decide, has_after_add _ 70 40 (by decide)⟩

/-- C5 at the driver's tree, the removed key 70 (two children) and the queried
key 59. -/
theorem has_after_remove_witness :
    (BST.build ([20, 40, 10, 70, 99, -2, 59, 43] : List Int)).Ordered ∧
      (((BST.build ([20, 40, 10, 70, 99, -2, 59, 43] : List Int)).remove 70).has 59 = true ↔
        (59 : Int) ≠ 70 ∧
          (BST.build ([20, 40, 10, 70, 99, -2, 59, 43] : List Int)).has 59 = true) ∧
      ((BST.build ([20, 40, 10, 70, 99, -2, 59, 43] : List Int)).remove 70).has 70 = false :=
  ⟨by decide, has_after_remove _ 70 59 (by decide)⟩

/-- C6 at the tree built from 20, 40, 10 and the present key 40. -/
theorem add_present_noop_witness :
    (BST.build ([20, 40, 10] : List Int)).has 40 = true ∧
      (BST.build ([20, 40, 10] : List Int)).add 40 = BST.build ([20, 40, 10] : List Int) :=
  ⟨by decide, add_present_noop.1 _ 40 (by decide)⟩

/-- C7 at the tree built from 20, 40, 10 and the absent key 100. -/
theorem remove_absent_noop_witness :
    (BST.build ([20, 40, 10] : List Int)).has 100 = false ∧
      (BST.build ([20, 40, 10] : List Int)).remove 100 = BST.build ([20, 40, 10] : List Int) :=
  ⟨by decide, remove_absent_noop _ 100 (by decide)⟩

/-- C10 at the driver's tree: 70 sits at the position right, right with the
children 59 and 99. -/
theorem remove_two_children_predecessor_witness :
    (BST.build ([20, 40, 10, 70, 99, -2, 59, 43] : List Int)).Ordered ∧
      ((BST.build ([20, 40, 10, 70, 99, -2, 59, 43] : List Int)).remove 70).root =
        (BST.build ([20, 40, 10, 70, 99, -2, 59, 43] : List Int)).root.replaceAt
          [.right, .right] (.node 59 (.node 43 .null .null) (.node 99 .null .null)) :=
  ⟨by decide,
    (remove_two_children_predecessor.1 (BST.build ([20, 40, 10, 70, 99, -2, 59, 43] : List Int))
      [.right, .right] 70 59 99 (.node 43 .null .null) .null .null .null (by decide)
      (by decide)).1⟩

/-- C19 at the driver's tree and the key 70, which sits at a node with two
children: the size goes from 8 to 7. -/
theorem remove_destroys_one_node_witness :
    (BST.build ([20, 40, 10, 70, 99, -2, 59, 43] : List Int)).Ordered ∧
      (BST.build ([20, 40, 10, 70, 99, -2, 59, 43] : List Int)).has 70 = true ∧
      ((BST.build ([20, 40, 10, 70, 99, -2, 59, 43] : List Int)).remove 70).size + 1 =
        (BST.build ([20, 40, 10, 70, 99, -2, 59, 43] : List Int)).size :=
  ⟨by decide, by decide,
    (remove_destroys_one_node (BST.build ([20, 40, 10, 70, 99, -2, 59, 43] : List Int)) 70
      (by decide)).1 (by decide)⟩

/-- C20 at the tree built from 20, 40, 10 and the absent key 30. -/
theorem add_absent_attaches_leaf_witness :
    (BST.build ([20, 40, 10] : List Int)).has 30 = false ∧
      ((BST.build ([20, 40, 10] : List Int)).add 30).remove 30 =
        BST.build ([20, 40, 10] : List Int) :=
  ⟨by decide, (add_absent_attaches_leaf (BST.build ([20, 40, 10] : List Int)) 30 (by decide)).2.2⟩

/-- C13 at a memory holding the tree of 20 and 10 in the cells 0 and 1, the
allocator `Mem.bump`, and the calls `add(5)`, `remove(20)`: the copy is made in the
cells 2 and 3. -/
theorem copy_independent_witness :
    Mem.Tree ([(0, ⟨20, some 1, none⟩), (1, ⟨10, none, none⟩)] : Heap Int) (some 0)
        (.node 20 (.node 10 .null .null) .null) [0, 1] ∧
      Mem.copyOf Mem.bump 5 ([(0, ⟨20, some 1, none⟩), (1, ⟨10, none, none⟩)] : Heap Int)
          (some 0) =
        some ([(3, ⟨20, some 2, none⟩), (2, ⟨10, none, none⟩), (0, ⟨20, some 1, none⟩),
          (1, ⟨10, none, none⟩)], some 3) ∧
      ∃ h1 copyRoot,
        Mem.copyOf Mem.bump 5 ([(0, ⟨20, some 1, none⟩), (1, ⟨10, none, none⟩)] : Heap Int)
            (some 0) = some (h1, copyRoot) ∧
          Mem.IndependentCopy Mem.bump 5 h1 (some 0) copyRoot
            (.node 20 (.node 10 .null .null) .null) [0, 1] [.add 5, .remove 20] :=
  ⟨⟨⟨some 1, none, [1], [], rfl, ⟨none, none, [], [], rfl, rfl, rfl, rfl⟩, rfl, rfl⟩,
      by decide⟩,
    rfl,
    (copy_independent Mem.fresh_bump
      ([(0, ⟨20, some 1, none⟩), (1, ⟨10, none, none⟩)] : Heap Int) (some 0)
      (.node 20 (.node 10 .null .null) .null) [0, 1] [.add 5, .remove 20] 5
      ⟨⟨some 1, none, [1], [], rfl, ⟨none, none, [], [], rfl, rfl, rfl, rfl⟩, rfl, rfl⟩,
        by decide⟩
      (by decide)).1⟩

/-- C21 at the driver's tree: its pre-order keys 20, 10, -2, 40, 70, 59, 43, 99
rebuild it. -/
theorem preOrder_round_trip_witness :
    (BST.build ([20, 40, 10, 70, 99, -2, 59, 43] : List Int)).Ordered ∧
      (BST.build ([20, 40, 10, 70, 99, -2, 59, 43] : List Int)).root.preOrderKeys =
        [20, 10, -2, 40, 70, 59, 43, 99] ∧
      BST.build (BST.build ([20, 40, 10, 70, 99, -2, 59, 43] : List Int)).root.preOrderKeys =
        BST.build ([20, 40, 10, 70, 99, -2, 59, 43] : List Int) :=
  ⟨by decide, by decide,
    (preOrder_round_trip (BST.build ([20, 40, 10, 70, 99, -2, 59, 43] : List Int))
      (by decide)).1⟩

/-- C23 at the driver's tree, of height 5: adding 42 below 43 gives height 6, and
removing 43 gives height 4. -/
theorem height_after_mutation_witness :
    (BST.build ([20, 40, 10, 70, 99, -2, 59, 43] : List Int)).Ordered ∧
      (BST.build ([20, 40, 10, 70, 99, -2, 59, 43] : List Int)).getHeight = 5 ∧
      ((BST.build ([20, 40, 10, 70, 99, -2, 59, 43] : List Int)).add 42).getHeight = 6 ∧
      ((BST.build ([20, 40, 10, 70, 99, -2, 59, 43] : List Int)).remove 43).getHeight = 4 ∧
      (BST.build ([20, 40, 10, 70, 99, -2, 59, 43] : List Int)).getHeight - 1 ≤
        ((BST.build ([20, 40, 10, 70, 99, -2, 59, 43] : List Int)).remove 43).getHeight :=
  ⟨by decide, by decide, by decide, by decide,
    (height_after_mutation (BST.build ([20, 40, 10, 70, 99, -2, 59, 43] : List Int)) 43
      (by decide)).2.1⟩

end Witnesses

end BinarySearchTree
